import Mathlib

/-!
Shallow embedding of meilisearch's query-term parsing core
(`milli/src/search/new/query_term/parse_query.rs`) and the parts of its
surrounding module that the parser uses.  Machine integers (`u16`, `u8`,
`usize`) are modelled as `Nat` with explicit `% 2 ^ w` at the points where
the Rust code performs wrapping arithmetic (release semantics).  Stateful
code threads an explicit `SearchContext` value.  Fields named `is_prefix`
in the source are called `isPfx` here; the `end` field of position ranges
is called `posEnd` (resp. `stop` in the phrase builder) because `end` is a
Lean keyword.
-/

/-- Token kinds, from charabia's `TokenKind` as used by the parser. -/
inductive SeparatorKind where
  | Hard
  | Soft
deriving DecidableEq

inductive TokenKind where
  | Word
  | StopWord
  | Separator (k : SeparatorKind)
  | Unknown
deriving DecidableEq

/-- A normalized token: a kind plus its lemma string (`token.lemma()`). -/
structure Token where
  kind : TokenKind
  lemmaStr : String
deriving DecidableEq

/-- A generic deduplicating interner over `α`: `insert` returns the handle of
a structurally equal existing entry, else appends.  Handles are list
indices. -/
structure Interner (α : Type) where
  items : List α
deriving DecidableEq

def Interner.get {α : Type} (i : Interner α) (h : Nat) : Option α :=
  i.items[h]?

/-- Index of the first structurally equal entry, if any. -/
def Interner.lookup {α : Type} [DecidableEq α] : List α → α → Option Nat
  | [], _ => none
  | x :: xs, a =>
    if x = a then some 0 else (Interner.lookup xs a).map (fun n => n + 1)

def Interner.insert {α : Type} [DecidableEq α] (i : Interner α) (a : α) :
    Nat × Interner α :=
  match Interner.lookup i.items a with
  | some idx => (idx, i)
  | none => (i.items.length, ⟨i.items ++ [a]⟩)

/-- A phrase: an ordered sequence of optional word handles (`None` slots are
dropped stop-words). -/
structure Phrase where
  words : List (Option Nat)
deriving DecidableEq

/-- The lazy one-typo / two-typo slots; the parser only ever writes the
uninitialized state. -/
inductive LazySlot where
  | uninit
  | ready
deriving DecidableEq

/-- `ZeroTypoTerm`: the exact-match variants of a term.  `pfx_of` and
`use_pfx_db` model the source's `prefix_of` / `use_prefix_db`. -/
structure ZeroTypoTerm where
  phrase : Option Nat
  exact : Option Nat
  pfx_of : List Nat
  synonyms : List Nat
  use_pfx_db : Option Nat
deriving DecidableEq

/-- `QueryTerm`; `isPfx` models the source's `is_prefix` field. -/
structure QueryTerm where
  original : Nat
  ngram_words : Option (List Nat)
  isPfx : Bool
  max_nbr_typos : Nat
  zero_typo : ZeroTypoTerm
  one_typo : LazySlot
  two_typo : LazySlot
deriving DecidableEq

/-- `LocatedQueryTerm`: a term handle plus its inclusive `u16` position
range `posStart..=posEnd`. -/
structure LocatedQueryTerm where
  value : Nat
  posStart : Nat
  posEnd : Nat
deriving DecidableEq

/-- The search context: index configuration read through the transaction,
plus the three interners.  The term interner is push-only in this code path
(`term_interner.push`), so it is a plain list. -/
structure SearchContext where
  authorize_typos : Bool
  min_len_one_typo : Nat
  min_len_two_typos : Nat
  exact_words : Option (List String)
  synonyms : List (List String × List (List String))
  word_interner : Interner String
  phrase_interner : Interner Phrase
  term_interner : List QueryTerm
deriving DecidableEq

/-- `ctx.term_interner.get(h)` (push-only interner, plain index). -/
def termGet (c : SearchContext) (h : Nat) : Option QueryTerm :=
  c.term_interner[h]?

/-- Append a term to the term interner (`ctx.term_interner.push`), returning
its fresh handle. -/
def pushTerm (c : SearchContext) (t : QueryTerm) : Nat × SearchContext :=
  (c.term_interner.length, { c with term_interner := c.term_interner ++ [t] })

/-- Insert a word into the word interner, threading the context. -/
def internWord (c : SearchContext) (w : String) : Nat × SearchContext :=
  ((c.word_interner.insert w).1,
   { c with word_interner := (c.word_interner.insert w).2 })

/-- Insert a phrase into the phrase interner, threading the context. -/
def internPhrase (c : SearchContext) (p : Phrase) : Nat × SearchContext :=
  ((c.phrase_interner.insert p).1,
   { c with phrase_interner := (c.phrase_interner.insert p).2 })

/-- Modelled from the spec: `MAX_WORD_LENGTH` (a byte bound on words,
default 250) is defined in `milli/src/lib.rs`, which is not under `src/`. -/
def MAX_WORD_LENGTH : Nat := 250

/-- Modelled from the spec: `limits::MAX_TOKEN_COUNT` (the global bound on
tokens consumed per query, default 1000) is defined outside `src/`. -/
def MAX_TOKEN_COUNT : Nat := 1000

/-- `u16::MAX`. -/
def u16MAX : Nat := 65535

/-- The closure returned by `number_of_typos_allowed` (source lines
144-155): 0 typos when typos are off, the word is byte-wise shorter than
`min_len_one_typo`, or the word is in `exact_words`; else 1 below
`min_len_two_typos`; else 2. -/
def exactWordsContain (c : SearchContext) (word : String) : Bool :=
  match c.exact_words with
  | some fst => word ∈ fst
  | none => false

def numberOfTyposAllowed (c : SearchContext) (word : String) : Nat :=
  if ¬ c.authorize_typos ∨ word.utf8ByteSize < c.min_len_one_typo ∨
      exactWordsContain c word then
    0
  else if word.utf8ByteSize < c.min_len_two_typos then 1
  else 2

/-- Modelled from the spec: `partially_initialized_term_from_word` (the term
builder, spec §4.3) is not under `src/`.  It interns the word as `original`,
sets `zero_typo` to `phrase = None`, `exact = None`, empty
`prefix_of`/`synonyms`, `use_prefix_db = None`, leaves the typo slots
uninitialized, sets `ngram_words = None`, and records `is_prefix` and
`max_nbr_typos`. -/
def termFromWord (c : SearchContext) (word : String) (maxTypos : Nat)
    (pfxFlag : Bool) : QueryTerm × SearchContext :=
  ({ original := (internWord c word).1
     ngram_words := none
     isPfx := pfxFlag
     max_nbr_typos := maxTypos
     zero_typo :=
       { phrase := none, exact := none, pfx_of := [], synonyms := [],
         use_pfx_db := none }
     one_typo := .uninit
     two_typo := .uninit }, (internWord c word).2)

/-- The parser's phrase accumulator (`PhraseBuilder`): slot list plus the
start/end positions (`stop` models the source's `end`). -/
structure PhraseBuilder where
  words : List (Option Nat)
  start : Nat
  stop : Nat
deriving DecidableEq

def PhraseBuilder.empty : PhraseBuilder :=
  { words := [], start := u16MAX, stop := u16MAX }

/-- `PhraseBuilder::push_word` (precondition: the token kind is `Word` or
`StopWord`): fix `start` on the first push, always update `stop`; a
`StopWord` contributes a `None` slot, a `Word` interns its lemma. -/
def PhraseBuilder.pushWord (pb : PhraseBuilder) (c : SearchContext)
    (tok : Token) (position : Nat) : PhraseBuilder × SearchContext :=
  let pb1 :=
    if pb.words = [] then { pb with start := position, stop := position }
    else { pb with stop := position }
  match tok.kind with
  | .StopWord => ({ pb1 with words := pb1.words ++ [none] }, c)
  | _ =>
    ({ pb1 with words := pb1.words ++ [some (internWord c tok.lemmaStr).1] },
     (internWord c tok.lemmaStr).2)

/-- Modelled from the spec: `Phrase::description` (the human-readable
description string used for a phrase term's `original`) is not under
`src/`; the spec only says a description string is synthesized, so the
present words are joined with spaces (slots that do not resolve are
skipped). -/
def phraseDescription (c : SearchContext) (ws : List (Option Nat)) : String :=
  " ".intercalate ((ws.filterMap id).filterMap (fun h => c.word_interner.get h))

/-- `PhraseBuilder::build`: an empty builder yields nothing; otherwise the
slot list is interned as a phrase and wrapped in a `QueryTerm` with
`max_nbr_typos = 0` and `is_prefix = false`, located at `start..=stop`. -/
def PhraseBuilder.build (pb : PhraseBuilder) (c : SearchContext) :
    Option LocatedQueryTerm × SearchContext :=
  if pb.words = [] then (none, c)
  else
    let ph := (internPhrase c ⟨pb.words⟩).1
    let c1 := (internPhrase c ⟨pb.words⟩).2
    let desc := phraseDescription c1 pb.words
    let orig := (internWord c1 desc).1
    let c2 := (internWord c1 desc).2
    let qt : QueryTerm :=
      { original := orig
        ngram_words := none
        isPfx := false
        max_nbr_typos := 0
        zero_typo :=
          { phrase := some ph, exact := none, pfx_of := [], synonyms := [],
            use_pfx_db := none }
        one_typo := .uninit
        two_typo := .uninit }
    (some ⟨(pushTerm c2 qt).1, pb.start, pb.stop⟩, (pushTerm c2 qt).2)

/-- The mutable state of `located_query_terms_from_string`'s loop. -/
structure ParseState where
  ctx : SearchContext
  pos : Nat
  phrase : Option PhraseBuilder
  located : List LocatedQueryTerm
deriving DecidableEq

/-- Emit a single-word located term at position `p` (the shared tail of the
parser's word branches). -/
def emitWord (nbrTypos : String → Nat) (pfxFlag : Bool) (tok : Token)
    (p : Nat) (s : ParseState) : ParseState :=
  let r := termFromWord s.ctx tok.lemmaStr (nbrTypos tok.lemmaStr) pfxFlag
  { s with
    pos := p
    ctx := (pushTerm r.2 r.1).2
    located := s.located ++ [⟨(pushTerm r.2 r.1).1, p, p⟩] }

/-- Close the phrase under a hard separator (source lines 87-99): when a
phrase is open, build and emit it and restart an empty phrase. -/
def hardClose (s : ParseState) : Option PhraseBuilder × List LocatedQueryTerm × SearchContext :=
  match s.phrase with
  | some pb =>
    match (pb.build s.ctx).1 with
    | some lt => (some PhraseBuilder.empty, s.located ++ [lt], (pb.build s.ctx).2)
    | none => (some PhraseBuilder.empty, s.located, (pb.build s.ctx).2)
  | none => (none, s.located, s.ctx)

/-- Consume the closing quote (source lines 107-114): when a phrase is
open, build and emit it and decrement the quote count. -/
def quoteClose (ph1 : Option PhraseBuilder) (loc1 : List LocatedQueryTerm)
    (c1 : SearchContext) (qc : Nat) :
    List LocatedQueryTerm × SearchContext × Nat :=
  match ph1 with
  | some pb =>
    match (pb.build c1).1 with
    | some lt => (loc1 ++ [lt], (pb.build c1).2, qc - 1)
    | none => (loc1, (pb.build c1).2, qc - 1)
  | none => (loc1, c1, qc)

/-- One iteration of the parser loop on a non-empty-lemma token below the
word limit.  `isLast` is `peekable.peek().is_none()` on the truncated
stream. -/
def lqtStep (nbrTypos : String → Nat) (isLast : Bool) (tok : Token)
    (s : ParseState) : ParseState :=
  match tok.kind with
  | .Word | .StopWord =>
    let p := (s.pos + 1) % 65536
    match s.phrase with
    | some pb =>
      { s with
        pos := p
        phrase := some (pb.pushWord s.ctx tok p).1
        ctx := (pb.pushWord s.ctx tok p).2 }
    | none =>
      if isLast = false then
        match tok.kind with
        | .Word => emitWord nbrTypos false tok p s
        | _ => { s with pos := p }
      else emitWord nbrTypos true tok p s
  | .Separator sk =>
    let p := if sk = .Hard then (s.pos + 1) % 65536 else s.pos
    let hc := if sk = .Hard then hardClose s else (s.phrase, s.located, s.ctx)
    let qc := tok.lemmaStr.toList.count '"'
    if qc = 0 then
      { ctx := hc.2.2, pos := p, phrase := hc.1, located := hc.2.1 }
    else
      let r := quoteClose hc.1 hc.2.1 hc.2.2 qc
      { ctx := r.2.1, pos := p,
        phrase := if r.2.2 % 2 = 1 then some PhraseBuilder.empty else none,
        located := r.1 }
  | .Unknown => s

/-- The parser loop over the (already truncated) token list.  Empty-lemma
tokens are skipped; when the emitted count has reached the limit the
function returns at once (no final phrase flush); at the end of the stream
a still-open phrase is built and emitted. -/
def lqtLoop (nbrTypos : String → Nat) (limit : Nat) :
    List Token → ParseState → ParseState
  | [], s =>
    match s.phrase with
    | some pb =>
      match (pb.build s.ctx).1 with
      | some lt =>
        { ctx := (pb.build s.ctx).2, pos := s.pos, phrase := none,
          located := s.located ++ [lt] }
      | none =>
        { ctx := (pb.build s.ctx).2, pos := s.pos, phrase := none,
          located := s.located }
    | none => s
  | tok :: rest, s =>
    if tok.lemmaStr = "" then lqtLoop nbrTypos limit rest s
    else if limit ≤ s.located.length then s
    else lqtLoop nbrTypos limit rest (lqtStep nbrTypos rest.isEmpty tok s)

/-- `located_query_terms_from_string`, returning the final loop state: the
stream is truncated at `MAX_TOKEN_COUNT`, the limit defaults to
`usize::MAX`, and the position counter starts at `u16::MAX`. -/
def parseFinal (c : SearchContext) (query : List Token)
    (wordsLimit : Option Nat) : ParseState :=
  lqtLoop (numberOfTyposAllowed c) (wordsLimit.getD (2 ^ 64 - 1))
    (query.take MAX_TOKEN_COUNT)
    { ctx := c, pos := u16MAX, phrase := none, located := [] }

/-- The emitted located terms of `located_query_terms_from_string`. -/
def locatedQueryTermsFromString (c : SearchContext) (query : List Token)
    (wordsLimit : Option Nat) : List LocatedQueryTerm :=
  (parseFinal c query wordsLimit).located

/-- `u16` wrapping `n - 1`, matching `t2.positions.start() - 1` under
release (wrapping) semantics. -/
def wrapSub1 (n : Nat) : Nat := (n + 65535) % 65536

/-- First `make_ngram` loop: look up each term and report whether any is a
phrase (`zero_typo.phrase.is_some()`); `none` models the panic of an
out-of-range handle. -/
def phraseCheck (c : SearchContext) : List LocatedQueryTerm → Option Bool
  | [] => some false
  | t :: ts =>
    match termGet c t.value with
    | none => none
    | some qt => if qt.zero_typo.phrase.isSome then some true else phraseCheck c ts

/-- Second `make_ngram` loop over `terms.windows(2)`: every adjacent pair
must satisfy `t1.positions.end == t2.positions.start - 1` (u16 wrapping). -/
def adjacentOK : List LocatedQueryTerm → Bool
  | [] => true
  | [_] => true
  | a :: b :: rest => (a.posEnd = wrapSub1 b.posStart) && adjacentOK (b :: rest)

/-- Modelled from the spec: `original_single_word` is not under `src/`; per
the spec it exposes the original word handle iff the term is neither a
phrase nor a prior n-gram. -/
def originalSingleWord (qt : QueryTerm) : Option Nat :=
  if qt.ngram_words.isSome ∨ qt.zero_typo.phrase.isSome then none
  else some qt.original

/-- Third `make_ngram` loop: collect `original_single_word` for every term.
Outer `none` models the panic of a bad handle; `some none` is the early
`Ok(None)` return when some term exposes no single word. -/
def collectWords (c : SearchContext) :
    List LocatedQueryTerm → Option (Option (List Nat))
  | [] => some (some [])
  | t :: ts =>
    match termGet c t.value with
    | none => none
    | some qt =>
      match originalSingleWord qt with
      | none => some none
      | some h =>
        match collectWords c ts with
        | none => none
        | some none => some none
        | some (some hs) => some (some (h :: hs))

/-- Resolve the collected word handles to owned strings
(`words_interned.iter().map(|&i| ctx.word_interner.get(i).to_owned())`);
`none` models the panic of a bad handle. -/
def resolveWords (c : SearchContext) : List Nat → Option (List String)
  | [] => some []
  | h :: hs =>
    match c.word_interner.get h with
    | none => none
    | some w =>
      match resolveWords c hs with
      | none => none
      | some ws => some (w :: ws)

/-- `ctx.index.synonyms(ctx.txn)?.get(&words).cloned().unwrap_or_default()`:
look the exact word sequence up in the index synonym map. -/
def synLookup (c : SearchContext) (ws : List String) : List (List String) :=
  ((c.synonyms.find? (fun p => p.1 = ws)).map Prod.snd).getD []

/-- Intern one synonym's words, each slot `Some(interned word)`. -/
def internSlots (c : SearchContext) :
    List String → List (Option Nat) × SearchContext
  | [] => ([], c)
  | w :: ws =>
    (some (internWord c w).1 :: (internSlots (internWord c w).2 ws).1,
     (internSlots (internWord c w).2 ws).2)

/-- Intern each synonym word list as a phrase (source lines 203-208),
returning the phrase handles in map order. -/
def internSynPhrases (c : SearchContext) :
    List (List String) → List Nat × SearchContext
  | [] => ([], c)
  | ws :: rest =>
    ((internPhrase (internSlots c ws).2 ⟨(internSlots c ws).1⟩).1 ::
      (internSynPhrases (internPhrase (internSlots c ws).2
        ⟨(internSlots c ws).1⟩).2 rest).1,
     (internSynPhrases (internPhrase (internSlots c ws).2
        ⟨(internSlots c ws).1⟩).2 rest).2)

/-- The success tail of `make_ngram` (source lines 193-222): intern the
concatenation, build the partially initialized term, extend its synonyms
with the interned synonym-map phrases, and push the final n-gram term. -/
def ngramTail (c : SearchContext) (terms : List LocatedQueryTerm)
    (nbrTypos : String → Nat) (hs : List Nat) (ws : List String)
    (pfxFlag : Bool) (startP stopP : Nat) : SearchContext × LocatedQueryTerm :=
  let ngramStr := String.join ws
  let maxT := nbrTypos ngramStr - ((terms.length % 256 + 255) % 256)
  let c1 := (internWord c ngramStr).2
  let qt0 := (termFromWord c1 ngramStr maxT pfxFlag).1
  let c2 := (termFromWord c1 ngramStr maxT pfxFlag).2
  let phs := (internSynPhrases c2 (synLookup c2 ws)).1
  let c3 := (internSynPhrases c2 (synLookup c2 ws)).2
  let finalQt : QueryTerm :=
    { original := (internWord c ngramStr).1
      ngram_words := some hs
      isPfx := pfxFlag
      max_nbr_typos := maxT
      zero_typo :=
        { qt0.zero_typo with synonyms := qt0.zero_typo.synonyms ++ phs }
      one_typo := .uninit
      two_typo := .uninit }
  ((pushTerm c3 finalQt).2, ⟨(pushTerm c3 finalQt).1, startP, stopP⟩)

/-- `make_ngram`.  The outer `Option` models panics (the
`assert!(!terms.is_empty())` and out-of-range handle lookups); the inner
`Option` is the function's `Ok(None)` / `Ok(Some(term))` result, paired
with the mutated context. -/
def makeNgram (c : SearchContext) (terms : List LocatedQueryTerm)
    (nbrTypos : String → Nat) : Option (Option (SearchContext × LocatedQueryTerm)) :=
  match terms with
  | [] => none
  | t0 :: _ =>
    match phraseCheck c terms with
    | none => none
    | some true => some none
    | some false =>
      if adjacentOK terms = false then some none
      else
        match collectWords c terms with
        | none => none
        | some none => some none
        | some (some hs) =>
          match resolveWords c hs with
          | none => none
          | some ws =>
            let start := t0.posStart
            let lastT := terms.getLastD t0
            match termGet c lastT.value with
            | none => none
            | some lastQt =>
              if MAX_WORD_LENGTH < (String.join ws).utf8ByteSize then
                some none
              else
                some (some (ngramTail c terms nbrTypos hs ws lastQt.isPfx
                  start lastT.posEnd))

/-!  Helper observers used to state properties of emitted terms. -/

/-- Does the located term resolve to a term with `is_prefix = true`? -/
def resolvedPfx (c : SearchContext) (lt : LocatedQueryTerm) : Bool :=
  ((termGet c lt.value).map (fun qt => qt.isPfx)).getD false

/-- Does the located term resolve to a phrase term
(`zero_typo.phrase.is_some()`)? -/
def resolvedPhraseSome (c : SearchContext) (lt : LocatedQueryTerm) : Bool :=
  ((termGet c lt.value).map (fun qt => qt.zero_typo.phrase.isSome)).getD false

/-- The interned phrase of a located phrase term, when it resolves. -/
def phraseOfTerm (c : SearchContext) (lt : LocatedQueryTerm) : Option Phrase :=
  match termGet c lt.value with
  | none => none
  | some qt =>
    match qt.zero_typo.phrase with
    | none => none
    | some h => c.phrase_interner.get h

/-- The slots of a located phrase term resolved to strings (`none` slots are
dropped stop-words). -/
def phraseSlotWords (c : SearchContext) (lt : LocatedQueryTerm) :
    Option (List (Option String)) :=
  (phraseOfTerm c lt).map
    (fun p => p.words.map (fun o => o.bind (fun h => c.word_interner.get h)))

/-- A phrase's slots resolved to strings. -/
def phraseToWords (c : SearchContext) (p : Phrase) : List (Option String) :=
  p.words.map (fun o => o.bind (fun h => c.word_interner.get h))

/-- Handle validity for `make_ngram` inputs: every located term resolves in
the term interner and its `original` word resolves in the word interner
(always true of interner-produced handles in the source). -/
def ValidHandles (c : SearchContext) (terms : List LocatedQueryTerm) : Prop :=
  ∀ lt ∈ terms, ∃ qt, termGet c lt.value = some qt ∧
    ∃ w, c.word_interner.get qt.original = some w

/-- The typo policy restated from the spec's words (§4.2), to be compared
with the source-embedded `numberOfTyposAllowed`: 0 when `!authorize_typos`,
or `word.len() < min_len_one_typo`, or `exact_words` contains the word;
else 1 when `word.len() < min_len_two_typos`; else 2.  Lengths are byte
lengths of the normalized form. -/
def typosSpec (c : SearchContext) (word : String) : Nat :=
  if c.authorize_typos = false then 0
  else if word.utf8ByteSize < c.min_len_one_typo then 0
  else if exactWordsContain c word then 0
  else if word.utf8ByteSize < c.min_len_two_typos then 1
  else 2

/-!  Concrete inputs used by scenario theorems, counterexamples and
witnesses.  `ctxA` uses the default typo thresholds named by the spec. -/

def ctxA : SearchContext :=
  { authorize_typos := true, min_len_one_typo := 5, min_len_two_typos := 9,
    exact_words := none, synonyms := [],
    word_interner := ⟨[]⟩, phrase_interner := ⟨[]⟩, term_interner := [] }

def tkWord (s : String) : Token := ⟨.Word, s⟩
def tkStop (s : String) : Token := ⟨.StopWord, s⟩
def tkHard (s : String) : Token := ⟨.Separator .Hard, s⟩
def tkSoft (s : String) : Token := ⟨.Separator .Soft, s⟩

/-- The token stream of spec scenario 3 (claim C6). -/
def qs6 : List Token :=
  [tkSoft "\"", tkWord "a", tkHard ".", tkWord "b", tkSoft "\""]

/-- A context holding the two parsed word terms "new" (position 5) and
"york" (position 6) of spec scenario 6, with the synonym map entry
`["new","york"] → [["nyc"]]`. -/
def ctxB : SearchContext :=
  { authorize_typos := true, min_len_one_typo := 5, min_len_two_typos := 9,
    exact_words := none, synonyms := [(["new", "york"], [["nyc"]])],
    word_interner := ⟨["new", "york"]⟩, phrase_interner := ⟨[]⟩,
    term_interner :=
      [ { original := 0, ngram_words := none, isPfx := false,
          max_nbr_typos := 0,
          zero_typo := { phrase := none, exact := none, pfx_of := [],
                         synonyms := [], use_pfx_db := none },
          one_typo := .uninit, two_typo := .uninit },
        { original := 1, ngram_words := none, isPfx := true,
          max_nbr_typos := 1,
          zero_typo := { phrase := none, exact := none, pfx_of := [],
                         synonyms := [], use_pfx_db := none },
          one_typo := .uninit, two_typo := .uninit } ] }

/-- The located terms "new" at 5..=5 and "york" at 6..=6 (scenario 6). -/
def ltsB : List LocatedQueryTerm := [⟨0, 5, 5⟩, ⟨1, 6, 6⟩]

/-- The query term stored at handle 1 of `ctxB` (the prefix term "york"). -/
def qtlB : QueryTerm :=
  { original := 1, ngram_words := none, isPfx := true, max_nbr_typos := 1,
    zero_typo := { phrase := none, exact := none, pfx_of := [],
                   synonyms := [], use_pfx_db := none },
    one_typo := .uninit, two_typo := .uninit }

/-- Context growth: every handle that resolves in `c` resolves to the same
value in `c2` (interners are append-only; the index configuration never
changes). -/
def CtxExtends (c c2 : SearchContext) : Prop :=
  (∀ k v, termGet c k = some v → termGet c2 k = some v) ∧
  (∀ k v, c.phrase_interner.get k = some v → c2.phrase_interner.get k = some v) ∧
  (∀ k v, c.word_interner.get k = some v → c2.word_interner.get k = some v)

/-- The located term resolves to a non-prefix term. -/
def NPfx (c : SearchContext) (lt : LocatedQueryTerm) : Prop :=
  ∃ qt, termGet c lt.value = some qt ∧ qt.isPfx = false

/-- The located term resolves, and if its term is a prefix term then it is
a plain word term (never a phrase). -/
def SoftPfx (c : SearchContext) (lt : LocatedQueryTerm) : Prop :=
  ∃ qt, termGet c lt.value = some qt ∧
    (qt.isPfx = true → qt.zero_typo.phrase = none)

/-- The located term resolves and, when it is a phrase term, its phrase has
at least one slot and its position range is non-degenerate. -/
def GoodT (c : SearchContext) (lt : LocatedQueryTerm) : Prop :=
  ∃ qt, termGet c lt.value = some qt ∧
    (qt.zero_typo.phrase = none ∨
      ∃ ph pr, qt.zero_typo.phrase = some ph ∧
        c.phrase_interner.get ph = some pr ∧ pr.words ≠ [] ∧
        lt.posStart ≤ lt.posEnd)

/-- 1 when an open phrase builder is non-empty (the end-of-stream flush
would emit it), else 0. -/
def builderPot : Option PhraseBuilder → Nat
  | some pb => if pb.words = [] then 0 else 1
  | none => 0

/-- `builderPot` of the parser state's phrase slot. -/
def phrasePotential (s : ParseState) : Nat :=
  builderPot s.phrase

/-- Position/builder invariant of the parser loop with `n` tokens left:
either the counter still sits at `u16::MAX` and every open builder is
empty, or the counter has wrapped to a small value and every open non-empty
builder is ordered and bounded by it, with enough headroom that the counter
cannot wrap again within `n` tokens. -/
def PosInv (s : ParseState) (n : Nat) : Prop :=
  (s.pos = u16MAX ∧ n ≤ 65535 ∧ ∀ pb, s.phrase = some pb → pb.words = []) ∨
  (s.pos + n ≤ 65535 ∧
    ∀ pb, s.phrase = some pb → pb.words ≠ [] →
      pb.start ≤ pb.stop ∧ pb.stop ≤ s.pos)

/-! ## Interner groundwork -/

theorem Interner.lookup_getElem {α : Type} [DecidableEq α] :
    ∀ (l : List α) (a : α) (i : Nat), Interner.lookup l a = some i → l[i]? = some a := by
  intro l
  induction l with
  | nil => intro a i h; simp [Interner.lookup] at h
  | cons x xs ih =>
    intro a i h
    simp only [Interner.lookup] at h
    by_cases hx : x = a
    · simp [hx] at h; subst h; simp [hx]
    · simp [hx] at h
      obtain ⟨j, hj, rfl⟩ := h
      simpa using ih a j hj

/-- The handle returned by `insert` resolves to the inserted value. -/
theorem Interner.get_insert_self {α : Type} [DecidableEq α] (I : Interner α) (a : α) :
    ((I.insert a).2).get (I.insert a).1 = some a := by
  unfold Interner.insert
  cases h : Interner.lookup I.items a with
  | some idx => simpa [Interner.get] using Interner.lookup_getElem I.items a idx h
  | none => simp [Interner.get]

/-- `insert` preserves every resolving handle. -/
theorem Interner.get_insert_preserve {α : Type} [DecidableEq α] (I : Interner α)
    (a : α) (k : Nat) (x : α) (h : I.get k = some x) : ((I.insert a).2).get k = some x := by
  unfold Interner.insert
  cases hl : Interner.lookup I.items a with
  | some idx => simpa [Interner.get] using h
  | none =>
    have hk : k < I.items.length := by
      by_contra hk
      simp [Interner.get, List.getElem?_eq_none (Nat.le_of_not_lt hk)] at h
    simpa [Interner.get, List.getElem?_append, hk] using h

/-! ## C9: the typo policy -/

/-- C9: for every word, the typo-policy function returns 0 if typos are not
authorized, or the word's byte length is below `min_len_one_typo`, or the
word is in `exact_words`; else 1 if the byte length is below
`min_len_two_typos`; else 2 (`typosSpec` is this case split written from
the spec's words). -/
theorem typoPolicyMatchesSpec (c : SearchContext) (word : String) :
    numberOfTyposAllowed c word = typosSpec c word := by
  simp only [numberOfTyposAllowed, typosSpec]
  by_cases h1 : c.authorize_typos <;>
    by_cases h2 : word.utf8ByteSize < c.min_len_one_typo <;>
      by_cases h3 : exactWordsContain c word <;>
        simp [h1, h2, h3]

/-! ## C6: hard separator inside quotes (spec scenario 3) -/

/-- C6: on tokens `Soft("\"")`, `Word("a")`, `Hard(".")`, `Word("b")`,
`Soft("\"")` the parser emits exactly two phrase terms: phrase `["a"]` at
positions 0..=0 and phrase `["b"]` at positions 2..=2. -/
theorem hardSepInsidePhraseScenario :
    ((parseFinal ctxA qs6 none).located.map
      (fun lt => (lt.posStart, lt.posEnd,
        phraseSlotWords (parseFinal ctxA qs6 none).ctx lt))) =
    [(0, 0, some [some "a"]), (2, 2, some [some "b"])] := by decide

/-! ## Counterexamples on concrete token streams -/

/-- C1 counterexample: on tokens `Hard(".")`, `Word("a")` the single emitted
term sits at position 1, not position 0 — the leading hard separator
consumes the wrap from `u16::MAX` to 0 and the first content word is then
bumped to 1. -/
theorem leadingHardSepPositionZero_refuted :
    ((locatedQueryTermsFromString ctxA [tkHard ".", tkWord "a"] none).map
      (fun lt => lt.posStart) = [1]) ∧
    ¬ ((locatedQueryTermsFromString ctxA [tkHard ".", tkWord "a"] none).map
      (fun lt => lt.posStart) = [0]) := by decide

/-- C2 counterexample: the single-token stream `StopWord("the")` (terminal
token of kind `StopWord`, no phrase open) emits one located term, and that
term has `is_prefix = true` — a terminal `StopWord` is not ignored. -/
theorem terminalStopWordIgnored_refuted :
    (locatedQueryTermsFromString ctxA [tkStop "the"] none).length = 1 ∧
    ¬ ((locatedQueryTermsFromString ctxA [tkStop "the"] none) = []) ∧
    resolvedPfx (parseFinal ctxA [tkStop "the"] none).ctx
      ((locatedQueryTermsFromString ctxA [tkStop "the"] none).headD ⟨0, 0, 0⟩)
      = true := by decide

/-- C3 counterexample: on tokens `Word("a")`, `Soft(",")` the final content
token is a `Word` outside any phrase, yet no emitted term has
`is_prefix = true` (the trailing soft separator makes the word
non-terminal), refuting the claimed "iff". -/
theorem pfxIffFinalContentWord_refuted :
    ((parseFinal ctxA [tkWord "a", tkSoft ","] none).located.length = 1) ∧
    (∀ lt ∈ (parseFinal ctxA [tkWord "a", tkSoft ","] none).located,
      resolvedPfx (parseFinal ctxA [tkWord "a", tkSoft ","] none).ctx lt
        = false) ∧
    ((([tkWord "a", tkSoft ","].filter
        (fun t => t.kind = TokenKind.Word ∨ t.kind = TokenKind.StopWord)).getLast?).map
      Token.kind = some TokenKind.Word) := by decide

/-- C4 counterexample: on tokens `Soft("\"")`, `StopWord("the")`,
`Soft("\"")` the parser emits a phrase term whose only slot is `None` — a
phrase with no non-stop-word slot is emitted, not discarded. -/
theorem phraseNonNoneSlot_refuted :
    ((parseFinal ctxA [tkSoft "\"", tkStop "the", tkSoft "\""] none).located.map
      (fun lt =>
        phraseSlotWords
          (parseFinal ctxA [tkSoft "\"", tkStop "the", tkSoft "\""] none).ctx
          lt) = [some [none]]) ∧
    (∀ lt ∈ (parseFinal ctxA [tkSoft "\"", tkStop "the", tkSoft "\""] none).located,
      ∀ sw, phraseSlotWords
          (parseFinal ctxA [tkSoft "\"", tkStop "the", tkSoft "\""] none).ctx lt
          = some sw → sw.all (fun o => o = none) = true) := by decide

/-! ## Context growth groundwork -/

theorem ctxExtends_rfl (c : SearchContext) : CtxExtends c c :=
  ⟨fun _ _ h => h, fun _ _ h => h, fun _ _ h => h⟩

theorem ctxExtends_trans {a b c : SearchContext}
    (h1 : CtxExtends a b) (h2 : CtxExtends b c) : CtxExtends a c :=
  ⟨fun k v h => h2.1 k v (h1.1 k v h),
   fun k v h => h2.2.1 k v (h1.2.1 k v h),
   fun k v h => h2.2.2 k v (h1.2.2 k v h)⟩

theorem internWord_extends (c : SearchContext) (w : String) :
    CtxExtends c (internWord c w).2 := by
  refine ⟨fun k v h => ?_, fun k v h => ?_, fun k v h => ?_⟩ <;>
    simpa [internWord, termGet] using
      (by first
        | exact h
        | exact Interner.get_insert_preserve c.word_interner w k v h)

theorem internWord_get (c : SearchContext) (w : String) :
    (internWord c w).2.word_interner.get (internWord c w).1 = some w := by
  simpa [internWord] using Interner.get_insert_self c.word_interner w

theorem internPhrase_extends (c : SearchContext) (p : Phrase) :
    CtxExtends c (internPhrase c p).2 := by
  refine ⟨fun k v h => ?_, fun k v h => ?_, fun k v h => ?_⟩ <;>
    simpa [internPhrase, termGet] using
      (by first
        | exact h
        | exact Interner.get_insert_preserve c.phrase_interner p k v h)

theorem internPhrase_get (c : SearchContext) (p : Phrase) :
    (internPhrase c p).2.phrase_interner.get (internPhrase c p).1 = some p := by
  simpa [internPhrase] using Interner.get_insert_self c.phrase_interner p

theorem pushTerm_extends (c : SearchContext) (t : QueryTerm) :
    CtxExtends c (pushTerm c t).2 := by
  refine ⟨fun k v h => ?_, fun k v h => ?_, fun k v h => ?_⟩
  · have hk : k < c.term_interner.length := by
      by_contra hk
      simp [termGet, List.getElem?_eq_none (Nat.le_of_not_lt hk)] at h
    simpa [pushTerm, termGet, List.getElem?_append, hk] using h
  · simpa [pushTerm] using h
  · simpa [pushTerm] using h

theorem pushTerm_get (c : SearchContext) (t : QueryTerm) :
    termGet (pushTerm c t).2 (pushTerm c t).1 = some t := by
  simp [pushTerm, termGet]

theorem termFromWord_extends (c : SearchContext) (w : String) (m : Nat)
    (b : Bool) : CtxExtends c (termFromWord c w m b).2 := by
  simpa [termFromWord] using internWord_extends c w

/-! ## Phrase-builder characterizations -/

theorem build_none (pb : PhraseBuilder) (c : SearchContext)
    (h : (pb.build c).1 = none) : pb.build c = (none, c) ∧ pb.words = [] := by
  by_cases hw : pb.words = []
  · simp [PhraseBuilder.build, hw]
  · simp [PhraseBuilder.build, hw] at h

theorem build_extends (pb : PhraseBuilder) (c : SearchContext) :
    CtxExtends c (pb.build c).2 := by
  by_cases hw : pb.words = []
  · simpa [PhraseBuilder.build, hw] using ctxExtends_rfl c
  · simp only [PhraseBuilder.build, hw, if_false]
    exact ctxExtends_trans (internPhrase_extends c ⟨pb.words⟩)
      (ctxExtends_trans (internWord_extends _ _) (pushTerm_extends _ _))

theorem build_some (pb : PhraseBuilder) (c : SearchContext) (lt : LocatedQueryTerm)
    (h : (pb.build c).1 = some lt) :
    pb.words ≠ [] ∧ lt.posStart = pb.start ∧ lt.posEnd = pb.stop ∧
    ∃ qt ph, termGet (pb.build c).2 lt.value = some qt ∧ qt.isPfx = false ∧
      qt.ngram_words = none ∧ qt.zero_typo.phrase = some ph ∧
      (pb.build c).2.phrase_interner.get ph = some ⟨pb.words⟩ := by
  by_cases hw : pb.words = []
  · simp [PhraseBuilder.build, hw] at h
  · simp only [PhraseBuilder.build, hw, if_false, Option.some.injEq] at h
    subst h
    refine ⟨hw, rfl, rfl, ?_⟩
    simp only [PhraseBuilder.build, hw, if_false]
    exact ⟨_, _, pushTerm_get _ _, rfl, rfl, rfl,
      (pushTerm_extends _ _).2.1 _ _
        ((internWord_extends _ _).2.1 _ _ (internPhrase_get c ⟨pb.words⟩))⟩

theorem pushWord_char (pb : PhraseBuilder) (c : SearchContext) (tok : Token)
    (p : Nat) :
    CtxExtends c (pb.pushWord c tok p).2 ∧
    (pb.pushWord c tok p).1.words ≠ [] ∧
    (pb.pushWord c tok p).1.stop = p ∧
    (pb.pushWord c tok p).1.start = (if pb.words = [] then p else pb.start) := by
  cases hk : tok.kind <;> by_cases hw : pb.words = [] <;>
    simp [PhraseBuilder.pushWord, hk, hw, internWord_extends, ctxExtends_rfl]

/-! ## Step characterization: emitted terms are appended, contexts grow -/

theorem hardClose_char (s : ParseState) :
    ∃ new, (hardClose s).2.1 = s.located ++ new ∧
      CtxExtends s.ctx (hardClose s).2.2 := by
  cases hp : s.phrase with
  | none =>
    exact ⟨[], by simp [hardClose, hp],
      by simpa [hardClose, hp] using ctxExtends_rfl s.ctx⟩
  | some pb =>
    cases hb : (pb.build s.ctx).1 with
    | some lt =>
      exact ⟨[lt], by simp [hardClose, hp, hb],
        by simpa [hardClose, hp, hb] using build_extends pb s.ctx⟩
    | none =>
      exact ⟨[], by simp [hardClose, hp, hb],
        by simpa [hardClose, hp, hb] using build_extends pb s.ctx⟩

theorem quoteClose_char (ph1 : Option PhraseBuilder) (loc1 : List LocatedQueryTerm)
    (c1 : SearchContext) (qc : Nat) :
    ∃ new, (quoteClose ph1 loc1 c1 qc).1 = loc1 ++ new ∧
      CtxExtends c1 (quoteClose ph1 loc1 c1 qc).2.1 := by
  cases hp : ph1 with
  | none =>
    exact ⟨[], by simp [quoteClose],
      by simpa [quoteClose] using ctxExtends_rfl c1⟩
  | some pb =>
    cases hb : (pb.build c1).1 with
    | some lt =>
      exact ⟨[lt], by simp [quoteClose, hb],
        by simpa [quoteClose, hb] using build_extends pb c1⟩
    | none =>
      exact ⟨[], by simp [quoteClose, hb],
        by simpa [quoteClose, hb] using build_extends pb c1⟩

theorem lqtStepA (nbrT : String → Nat) (isLast : Bool) (tok : Token)
    (s : ParseState) :
    ∃ new, (lqtStep nbrT isLast tok s).located = s.located ++ new ∧
      CtxExtends s.ctx (lqtStep nbrT isLast tok s).ctx := by
  have hemit : ∀ b p, ∃ new,
      (emitWord nbrT b tok p s).located = s.located ++ new ∧
      CtxExtends s.ctx (emitWord nbrT b tok p s).ctx := by
    intro b p
    refine ⟨_, rfl, ?_⟩
    simpa [emitWord] using
      ctxExtends_trans (termFromWord_extends s.ctx tok.lemmaStr (nbrT tok.lemmaStr) b)
        (pushTerm_extends _ _)
  cases hk : tok.kind with
  | Word =>
    cases hp : s.phrase with
    | some pb =>
      refine ⟨[], by simp [lqtStep, hk, hp], ?_⟩
      simpa [lqtStep, hk, hp] using (pushWord_char pb s.ctx tok _).1
    | none =>
      cases isLast with
      | false => simpa [lqtStep, hk, hp] using hemit false ((s.pos + 1) % 65536)
      | true => simpa [lqtStep, hk, hp] using hemit true ((s.pos + 1) % 65536)
  | StopWord =>
    cases hp : s.phrase with
    | some pb =>
      refine ⟨[], by simp [lqtStep, hk, hp], ?_⟩
      simpa [lqtStep, hk, hp] using (pushWord_char pb s.ctx tok _).1
    | none =>
      cases isLast with
      | false =>
        exact ⟨[], by simp [lqtStep, hk, hp],
          by simpa [lqtStep, hk, hp] using ctxExtends_rfl s.ctx⟩
      | true => simpa [lqtStep, hk, hp] using hemit true ((s.pos + 1) % 65536)
  | Separator sk =>
    obtain ⟨n1, hn1, he1⟩ := hardClose_char s
    by_cases hq : tok.lemmaStr.data.count '"' = 0
    · cases sk with
      | Hard =>
        exact ⟨n1, by simp [lqtStep, String.toList, hk, hq, hn1],
          by simpa [lqtStep, String.toList, hk, hq] using he1⟩
      | Soft =>
        exact ⟨[], by simp [lqtStep, String.toList, hk, hq],
          by simpa [lqtStep, String.toList, hk, hq] using ctxExtends_rfl s.ctx⟩
    · cases sk with
      | Hard =>
        obtain ⟨n2, hn2, he2⟩ :=
          quoteClose_char (hardClose s).1 (hardClose s).2.1 (hardClose s).2.2
            (tok.lemmaStr.data.count '"')
        refine ⟨n1 ++ n2, ?_, ?_⟩
        · simp [lqtStep, String.toList, hk, hq]
          rw [hn2, hn1, List.append_assoc]
        · simpa [lqtStep, String.toList, hk, hq] using ctxExtends_trans he1 he2
      | Soft =>
        obtain ⟨n2, hn2, he2⟩ :=
          quoteClose_char s.phrase s.located s.ctx
            (tok.lemmaStr.data.count '"')
        refine ⟨n2, ?_, ?_⟩
        · simp [lqtStep, String.toList, hk, hq, hn2]
        · simpa [lqtStep, String.toList, hk, hq] using he2
  | Unknown =>
    exact ⟨[], by simp [lqtStep, hk],
      by simpa [lqtStep, hk] using ctxExtends_rfl s.ctx⟩

/-- The loop only appends located terms, and the context only grows. -/
theorem lqtLoop_grows (nbrT : String → Nat) (lim : Nat) :
    ∀ (ts : List Token) (s : ParseState),
      (∃ new, (lqtLoop nbrT lim ts s).located = s.located ++ new) ∧
      CtxExtends s.ctx (lqtLoop nbrT lim ts s).ctx := by
  intro ts
  induction ts with
  | nil =>
    intro s
    cases hp : s.phrase with
    | none =>
      exact ⟨⟨[], by simp [lqtLoop, hp]⟩, by simpa [lqtLoop, hp] using ctxExtends_rfl s.ctx⟩
    | some pb =>
      cases hb : (pb.build s.ctx).1 with
      | some lt =>
        exact ⟨⟨[lt], by simp [lqtLoop, hp, hb]⟩,
          by simpa [lqtLoop, hp, hb] using build_extends pb s.ctx⟩
      | none =>
        exact ⟨⟨[], by simp [lqtLoop, hp, hb]⟩,
          by simpa [lqtLoop, hp, hb] using build_extends pb s.ctx⟩
  | cons t rest ih =>
    intro s
    by_cases hl : t.lemmaStr = ""
    · simpa [lqtLoop, hl] using ih s
    · by_cases hlim : lim ≤ s.located.length
      · exact ⟨⟨[], by simp [lqtLoop, hl, hlim]⟩,
          by simpa [lqtLoop, hl, hlim] using ctxExtends_rfl s.ctx⟩
      · obtain ⟨n1, h1, he1⟩ := lqtStepA nbrT rest.isEmpty t s
        obtain ⟨⟨n2, h2⟩, he2⟩ := ih (lqtStep nbrT rest.isEmpty t s)
        have hstep : lqtLoop nbrT lim (t :: rest) s =
            lqtLoop nbrT lim rest (lqtStep nbrT rest.isEmpty t s) := by
          simp [lqtLoop, hl, hlim]
        refine ⟨⟨n1 ++ n2, ?_⟩, ?_⟩
        · rw [hstep, h2, h1, List.append_assoc]
        · rw [hstep]
          exact ctxExtends_trans he1 he2

/-- Loop unfolding on a non-empty-lemma token below the limit. -/
theorem lqtLoop_cons (nbrT : String → Nat) (lim : Nat) (t : Token)
    (rest : List Token) (s : ParseState) (hl : t.lemmaStr ≠ "")
    (hlim : ¬ lim ≤ s.located.length) :
    lqtLoop nbrT lim (t :: rest) s =
      lqtLoop nbrT lim rest (lqtStep nbrT rest.isEmpty t s) := by
  simp [lqtLoop, hl, hlim]

/-- C5's early return, as a standalone loop fact. -/
theorem lqtLoop_early_return (nbrT : String → Nat) (lim : Nat) (t : Token)
    (rest : List Token) (s : ParseState) (hl : t.lemmaStr ≠ "")
    (hlim : lim ≤ s.located.length) :
    lqtLoop nbrT lim (t :: rest) s = s := by
  simp [lqtLoop, hl, hlim]

/-- C2 (amended): a terminal `StopWord` outside a phrase is *not* ignored:
the parser emits a prefix located term for it (exactly as for a terminal
`Word`), while a non-terminal `StopWord` outside a phrase emits nothing. -/
theorem terminalStopWordEmitsPfxTerm (nbrT : String → Nat) (lim : Nat)
    (s : ParseState) (tok : Token)
    (hk : tok.kind = .StopWord) (hl : tok.lemmaStr ≠ "")
    (hp : s.phrase = none) (hlen : s.located.length < lim) :
    (∃ h qt,
      (lqtLoop nbrT lim [tok] s).located =
        s.located ++ [⟨h, (s.pos + 1) % 65536, (s.pos + 1) % 65536⟩] ∧
      termGet (lqtLoop nbrT lim [tok] s).ctx h = some qt ∧
      qt.isPfx = true ∧ qt.zero_typo.phrase = none) ∧
    (lqtStep nbrT false tok s).located = s.located := by
  have hnl := Nat.not_le.mpr hlen
  have h2 : (lqtStep nbrT true tok s).phrase = none := by
    simp [lqtStep, hk, hp, emitWord]
  have hstep : lqtLoop nbrT lim [tok] s = lqtStep nbrT true tok s := by
    rw [lqtLoop_cons nbrT lim tok [] s hl hnl]
    simp [lqtLoop, h2]
  constructor
  · rw [hstep]
    simp only [lqtStep, hk, hp, emitWord]
    exact ⟨_, _, rfl, pushTerm_get _ _, rfl, rfl⟩
  · simp [lqtStep, hk, hp]

/-- C1 (amended): on a stream beginning with a hard separator (quote-free,
non-empty lemma) followed by a `Word`, the first emitted located term sits
at positions 1..=1, not 0..=0: the hard separator's `position += 1`
consumes the wrap from `u16::MAX` to 0 and the first content word is
bumped to 1. -/
theorem leadingHardSepGivesPositionOne (c : SearchContext) (sep w : Token)
    (rest : List Token) (wl : Option Nat)
    (hks : sep.kind = .Separator .Hard) (hls : sep.lemmaStr ≠ "")
    (hq : sep.lemmaStr.data.count '"' = 0)
    (hkw : w.kind = .Word) (hlw : w.lemmaStr ≠ "")
    (hwl : wl ≠ some 0) :
    ∃ h, (locatedQueryTermsFromString c (sep :: w :: rest) wl).head? =
      some ⟨h, 1, 1⟩ := by
  have hlim : 0 < wl.getD (2 ^ 64 - 1) := by
    cases wl with
    | none => norm_num
    | some n =>
      cases n with
      | zero => exact absurd rfl hwl
      | succ m => simp
  have htake : (sep :: w :: rest).take MAX_TOKEN_COUNT =
      sep :: w :: rest.take 998 := rfl
  have hs1 : lqtStep (numberOfTyposAllowed c) false sep
      ⟨c, u16MAX, none, []⟩ = ⟨c, 0, none, []⟩ := by
    simp [lqtStep, hardClose, String.toList, hks, hq, u16MAX]
  have hs2 : ∀ b : Bool, (lqtStep (numberOfTyposAllowed c) b w
      ⟨c, 0, none, []⟩).located = [⟨c.term_interner.length, 1, 1⟩] := by
    intro b
    cases b <;>
      simp [lqtStep, hkw, emitWord, termFromWord, pushTerm, internWord]
  unfold locatedQueryTermsFromString parseFinal
  rw [htake]
  rw [lqtLoop_cons _ _ _ _ _ hls (by simpa using Nat.not_le.mpr hlim)]
  rw [show (w :: rest.take 998).isEmpty = false from rfl]
  rw [hs1]
  rw [lqtLoop_cons _ _ _ _ _ hlw (by simpa using Nat.not_le.mpr hlim)]
  obtain ⟨⟨n, hn⟩, -⟩ := lqtLoop_grows (numberOfTyposAllowed c)
    (wl.getD (2 ^ 64 - 1)) (rest.take 998)
    (lqtStep (numberOfTyposAllowed c) (rest.take 998).isEmpty w ⟨c, 0, none, []⟩)
  refine ⟨c.term_interner.length, ?_⟩
  rw [hn, hs2 (rest.take 998).isEmpty]
  simp

/-- Witness for C1's amended theorem at the concrete stream
`Hard(".") Word("a")`. -/
theorem leadingHardSepGivesPositionOne_witness :
    ∃ h, (locatedQueryTermsFromString ctxA [tkHard ".", tkWord "a"] none).head? =
      some ⟨h, 1, 1⟩ :=
  leadingHardSepGivesPositionOne ctxA (tkHard ".") (tkWord "a") [] none
    rfl (by decide) (by decide) rfl (by decide) (by decide)

/-- Witness for C2's amended theorem at the concrete terminal stop word
`"the"`. -/
theorem terminalStopWordEmitsPfxTerm_witness :
    (∃ h qt,
      (lqtLoop (numberOfTyposAllowed ctxA) 1 [tkStop "the"]
          ⟨ctxA, u16MAX, none, []⟩).located =
        (⟨ctxA, u16MAX, none, []⟩ : ParseState).located ++
          [⟨h, ((⟨ctxA, u16MAX, none, []⟩ : ParseState).pos + 1) % 65536,
            ((⟨ctxA, u16MAX, none, []⟩ : ParseState).pos + 1) % 65536⟩] ∧
      termGet (lqtLoop (numberOfTyposAllowed ctxA) 1 [tkStop "the"]
          ⟨ctxA, u16MAX, none, []⟩).ctx h = some qt ∧
      qt.isPfx = true ∧ qt.zero_typo.phrase = none) ∧
    (lqtStep (numberOfTyposAllowed ctxA) false (tkStop "the")
        ⟨ctxA, u16MAX, none, []⟩).located =
      (⟨ctxA, u16MAX, none, []⟩ : ParseState).located :=
  terminalStopWordEmitsPfxTerm (numberOfTyposAllowed ctxA) 1
    ⟨ctxA, u16MAX, none, []⟩ (tkStop "the") rfl (by decide) rfl (by decide)

/-! ## C5 groundwork: emission is bounded by the phrase potential -/

theorem hardClose_charB (s : ParseState) :
    ∃ new, (hardClose s).2.1 = s.located ++ new ∧
      new.length ≤ phrasePotential s ∧
      ((hardClose s).1 = none ∨ (hardClose s).1 = some PhraseBuilder.empty) := by
  cases hp : s.phrase with
  | none =>
    exact ⟨[], by simp [hardClose, hp], by simp, by simp [hardClose, hp]⟩
  | some pb =>
    cases hb : (pb.build s.ctx).1 with
    | some lt =>
      have hw := (build_some pb s.ctx lt hb).1
      exact ⟨[lt], by simp [hardClose, hp, hb],
        by simp [phrasePotential, builderPot, hp, hw],
        by simp [hardClose, hp, hb]⟩
    | none =>
      exact ⟨[], by simp [hardClose, hp, hb], by simp,
        by simp [hardClose, hp, hb]⟩

theorem quoteClose_charB (ph1 : Option PhraseBuilder)
    (loc1 : List LocatedQueryTerm) (c1 : SearchContext) (qc : Nat) :
    ∃ new, (quoteClose ph1 loc1 c1 qc).1 = loc1 ++ new ∧
      new.length ≤ builderPot ph1 := by
  cases hp : ph1 with
  | none => exact ⟨[], by simp [quoteClose], by simp⟩
  | some pb =>
    cases hb : (pb.build c1).1 with
    | some lt =>
      have hw := (build_some pb c1 lt hb).1
      exact ⟨[lt], by simp [quoteClose, hb], by simp [builderPot, hw]⟩
    | none => exact ⟨[], by simp [quoteClose, hb], by simp⟩

theorem lqtStepB (nbrT : String → Nat) (isLast : Bool) (tok : Token)
    (s : ParseState) :
    ∃ new, (lqtStep nbrT isLast tok s).located = s.located ++ new ∧
      new.length ≤ 1 ∧
      new.length + phrasePotential (lqtStep nbrT isLast tok s) ≤
        phrasePotential s + 1 ∧
      (1 ≤ phrasePotential (lqtStep nbrT isLast tok s) → new = []) := by
  have hpotle : ∀ o, builderPot o ≤ 1 := by
    intro o
    cases o with
    | none => simp [builderPot]
    | some pb => by_cases hw : pb.words = [] <;> simp [builderPot, hw]
  have hword : (tok.kind = TokenKind.Word ∨ tok.kind = TokenKind.StopWord) →
      ∃ new, (lqtStep nbrT isLast tok s).located = s.located ++ new ∧
      new.length ≤ 1 ∧
      new.length + phrasePotential (lqtStep nbrT isLast tok s) ≤
        phrasePotential s + 1 ∧
      (1 ≤ phrasePotential (lqtStep nbrT isLast tok s) → new = []) := by
    intro hk
    cases hp : s.phrase with
    | some pb =>
      have hs' : lqtStep nbrT isLast tok s =
          { s with
            pos := (s.pos + 1) % 65536
            phrase := some (pb.pushWord s.ctx tok ((s.pos + 1) % 65536)).1
            ctx := (pb.pushWord s.ctx tok ((s.pos + 1) % 65536)).2 } := by
        rcases hk with hk | hk <;> simp [lqtStep, hk, hp]
      refine ⟨[], by simp [hs'], by simp, ?_, by simp⟩
      have h1 := hpotle (some (pb.pushWord s.ctx tok ((s.pos + 1) % 65536)).1)
      have h2 := hpotle s.phrase
      simp only [hs', phrasePotential, List.length_nil]
      omega
    | none =>
      cases isLast with
      | true =>
        have hs' : lqtStep nbrT true tok s =
            emitWord nbrT true tok ((s.pos + 1) % 65536) s := by
          rcases hk with hk | hk <;> simp [lqtStep, hk, hp]
        refine ⟨_, by rw [hs']; rfl, by simp, ?_, ?_⟩
        · simp [hs', emitWord, phrasePotential, builderPot, hp]
        · simp [hs', emitWord, phrasePotential, builderPot, hp]
      | false =>
        rcases hk with hk | hk
        · have hs' : lqtStep nbrT false tok s =
              emitWord nbrT false tok ((s.pos + 1) % 65536) s := by
            simp [lqtStep, hk, hp]
          refine ⟨_, by rw [hs']; rfl, by simp, ?_, ?_⟩
          · simp [hs', emitWord, phrasePotential, builderPot, hp]
          · simp [hs', emitWord, phrasePotential, builderPot, hp]
        · have hs' : lqtStep nbrT false tok s =
              { s with pos := (s.pos + 1) % 65536 } := by
            simp [lqtStep, hk, hp]
          refine ⟨[], by simp [hs'], by simp, ?_, by simp⟩
          simp [hs', phrasePotential, builderPot, hp]
  cases hk : tok.kind with
  | Word => exact hword (Or.inl hk)
  | StopWord => exact hword (Or.inr hk)
  | Separator sk =>
    obtain ⟨n1, hn1, hb1, hc1⟩ := hardClose_charB s
    by_cases hq : tok.lemmaStr.data.count '"' = 0
    · cases sk with
      | Hard =>
        have hs' : lqtStep nbrT isLast tok s =
            { ctx := (hardClose s).2.2, pos := (s.pos + 1) % 65536,
              phrase := (hardClose s).1, located := (hardClose s).2.1 } := by
          simp [lqtStep, String.toList, hk, hq]
        refine ⟨n1, by rw [hs']; exact hn1, hb1.trans (hpotle _), ?_, ?_⟩
        · have hz : phrasePotential (lqtStep nbrT isLast tok s) = 0 := by
            rw [hs']
            rcases hc1 with h | h <;>
              simp [phrasePotential, builderPot, h, PhraseBuilder.empty]
          rw [hz]
          simpa using hb1.trans (Nat.le_succ_of_le (Nat.le_refl _))
        · intro hpot
          have hz : phrasePotential (lqtStep nbrT isLast tok s) = 0 := by
            rw [hs']
            rcases hc1 with h | h <;>
              simp [phrasePotential, builderPot, h, PhraseBuilder.empty]
          omega
      | Soft =>
        have hs' : lqtStep nbrT isLast tok s =
            { ctx := s.ctx, pos := s.pos, phrase := s.phrase,
              located := s.located } := by
          simp [lqtStep, String.toList, hk, hq]
        refine ⟨[], by simp [hs'], by simp, ?_, by simp⟩
        simp [hs', phrasePotential]
    · cases sk with
      | Hard =>
        obtain ⟨n2, hn2, hb2⟩ :=
          quoteClose_charB (hardClose s).1 (hardClose s).2.1 (hardClose s).2.2
            (tok.lemmaStr.data.count '"')
        have hb2' : n2.length = 0 := by
          rcases hc1 with h | h <;>
            simpa [h, builderPot, PhraseBuilder.empty] using hb2
        have hs' : (lqtStep nbrT isLast tok s).located =
            (quoteClose (hardClose s).1 (hardClose s).2.1 (hardClose s).2.2
              (tok.lemmaStr.data.count '"')).1 := by
          simp [lqtStep, String.toList, hk, hq]
        have hph : phrasePotential (lqtStep nbrT isLast tok s) = 0 := by
          have : (lqtStep nbrT isLast tok s).phrase = none ∨
              (lqtStep nbrT isLast tok s).phrase = some PhraseBuilder.empty := by
            simp only [lqtStep, String.toList, hk]
            by_cases hodd : (quoteClose (hardClose s).1 (hardClose s).2.1
                (hardClose s).2.2 (tok.lemmaStr.data.count '"')).2.2 % 2 = 1 <;>
              simp [hq, hodd]
          rcases this with h | h <;>
            simp [phrasePotential, builderPot, h, PhraseBuilder.empty]
        refine ⟨n1 ++ n2, ?_, ?_, ?_, ?_⟩
        · rw [hs', hn2, hn1, List.append_assoc]
        · simpa [hb2'] using hb1.trans (hpotle _)
        · rw [hph]
          simp only [List.length_append, hb2']
          omega
        · intro hpot
          omega
      | Soft =>
        obtain ⟨n2, hn2, hb2⟩ :=
          quoteClose_charB s.phrase s.located s.ctx
            (tok.lemmaStr.data.count '"')
        have hs' : (lqtStep nbrT isLast tok s).located =
            (quoteClose s.phrase s.located s.ctx
              (tok.lemmaStr.data.count '"')).1 := by
          simp [lqtStep, String.toList, hk, hq]
        have hph : phrasePotential (lqtStep nbrT isLast tok s) = 0 := by
          have : (lqtStep nbrT isLast tok s).phrase = none ∨
              (lqtStep nbrT isLast tok s).phrase = some PhraseBuilder.empty := by
            simp only [lqtStep, String.toList, hk]
            by_cases hodd : (quoteClose s.phrase s.located s.ctx
                (tok.lemmaStr.data.count '"')).2.2 % 2 = 1 <;>
              simp [hq, hodd]
          rcases this with h | h <;>
            simp [phrasePotential, builderPot, h, PhraseBuilder.empty]
        refine ⟨n2, by rw [hs']; exact hn2, hb2.trans (hpotle _), ?_, ?_⟩
        · rw [hph]
          have := hb2.trans (hpotle s.phrase)
          simpa [phrasePotential] using Nat.le_succ_of_le hb2
        · intro hpot
          omega
  | Unknown =>
    refine ⟨[], by simp [lqtStep, hk], by simp, by simp [lqtStep, hk], by simp⟩

/-- The emitted count never exceeds the word limit: the limit check runs
before each token and a non-empty open phrase always has one emission of
headroom reserved. -/
theorem lqtLoop_le_limit (nbrT : String → Nat) (lim : Nat) :
    ∀ (ts : List Token) (s : ParseState),
      s.located.length ≤ lim →
      (phrasePotential s = 1 → s.located.length < lim) →
      (lqtLoop nbrT lim ts s).located.length ≤ lim := by
  intro ts
  induction ts with
  | nil =>
    intro s h1 h2
    cases hp : s.phrase with
    | none => simpa [lqtLoop, hp] using h1
    | some pb =>
      cases hb : (pb.build s.ctx).1 with
      | some lt =>
        have hw := (build_some pb s.ctx lt hb).1
        have hpot : phrasePotential s = 1 := by
          simp [phrasePotential, builderPot, hp, hw]
        have := h2 hpot
        simp only [lqtLoop, hp, hb]
        simpa using this
      | none => simpa [lqtLoop, hp, hb] using h1
  | cons t rest ih =>
    intro s h1 h2
    by_cases hl : t.lemmaStr = ""
    · simpa [lqtLoop, hl] using ih s h1 h2
    · by_cases hlim : lim ≤ s.located.length
      · simpa [lqtLoop, hl, hlim] using h1
      · rw [lqtLoop_cons nbrT lim t rest s hl hlim]
        obtain ⟨new, hnew, hle1, hpot, hempty⟩ := lqtStepB nbrT rest.isEmpty t s
        refine ih _ ?_ ?_
        · rw [hnew]
          simp only [List.length_append]
          omega
        · intro hp1
          rw [hnew]
          have : new = [] := hempty (by omega)
          subst this
          simp only [List.length_append, List.length_nil, Nat.add_zero]
          omega
  
/-- The emitted count never exceeds the number of tokens plus the pending
phrase emission. -/
theorem lqtLoop_le_tokens (nbrT : String → Nat) (lim : Nat) :
    ∀ (ts : List Token) (s : ParseState),
      (lqtLoop nbrT lim ts s).located.length ≤
        s.located.length + phrasePotential s + ts.length := by
  intro ts
  induction ts with
  | nil =>
    intro s
    cases hp : s.phrase with
    | none => simp [lqtLoop, hp]
    | some pb =>
      cases hb : (pb.build s.ctx).1 with
      | some lt =>
        have hw := (build_some pb s.ctx lt hb).1
        simp [lqtLoop, hp, hb, phrasePotential, builderPot, hw]
      | none => simp [lqtLoop, hp, hb]
  | cons t rest ih =>
    intro s
    by_cases hl : t.lemmaStr = ""
    · calc (lqtLoop nbrT lim (t :: rest) s).located.length
          = (lqtLoop nbrT lim rest s).located.length := by simp [lqtLoop, hl]
        _ ≤ s.located.length + phrasePotential s + rest.length := ih s
        _ ≤ _ := by simp only [List.length_cons]; omega
    · by_cases hlim : lim ≤ s.located.length
      · rw [lqtLoop_early_return nbrT lim t rest s hl hlim]
        omega
      · rw [lqtLoop_cons nbrT lim t rest s hl hlim]
        obtain ⟨new, hnew, hle1, hpot, hempty⟩ := lqtStepB nbrT rest.isEmpty t s
        calc (lqtLoop nbrT lim rest (lqtStep nbrT rest.isEmpty t s)).located.length
            ≤ (lqtStep nbrT rest.isEmpty t s).located.length +
                phrasePotential (lqtStep nbrT rest.isEmpty t s) + rest.length :=
              ih _
          _ ≤ _ := by
              rw [hnew]
              simp only [List.length_append, List.length_cons]
              omega

/-- C5: `parse` emits at most `min(words_limit, MAX_TOKEN_COUNT)` located
terms, and once the emitted count has reached the limit the loop returns
immediately at the next (non-empty-lemma) token without consuming the rest
of the input. -/
theorem parseRespectsLimits (c : SearchContext) (query : List Token) (wl : Nat) :
    (locatedQueryTermsFromString c query (some wl)).length ≤
      min wl MAX_TOKEN_COUNT ∧
    (∀ (nbrT : String → Nat) (lim : Nat) (t : Token) (rest : List Token)
      (s : ParseState), t.lemmaStr ≠ "" → lim ≤ s.located.length →
      lqtLoop nbrT lim (t :: rest) s = s) := by
  constructor
  · refine Nat.le_min.mpr ⟨?_, ?_⟩
    · have h := lqtLoop_le_limit (numberOfTyposAllowed c) wl
        (query.take MAX_TOKEN_COUNT) ⟨c, u16MAX, none, []⟩ (by simp)
        (by intro h; simp [phrasePotential, builderPot] at h)
      simpa [locatedQueryTermsFromString, parseFinal] using h
    · have h := lqtLoop_le_tokens (numberOfTyposAllowed c) wl
        (query.take MAX_TOKEN_COUNT) ⟨c, u16MAX, none, []⟩
      have h2 : (query.take MAX_TOKEN_COUNT).length ≤ MAX_TOKEN_COUNT :=
        List.length_take_le _ _
      simp only [locatedQueryTermsFromString, parseFinal, Option.getD] at h ⊢
      simp only [phrasePotential, builderPot, List.length_nil] at h
      omega
  · exact fun nbrT lim t rest s hl hlim =>
      lqtLoop_early_return nbrT lim t rest s hl hlim

/-- Witness for C5 at a concrete query and limit. -/
theorem parseRespectsLimits_witness :
    ((locatedQueryTermsFromString ctxA [tkWord "x", tkWord "y"] (some 1)).length ≤
      min 1 MAX_TOKEN_COUNT) ∧
    lqtLoop (numberOfTyposAllowed ctxA) 1 [tkWord "z"]
      ⟨ctxA, 5, none, [⟨0, 0, 0⟩]⟩ = ⟨ctxA, 5, none, [⟨0, 0, 0⟩]⟩ :=
  ⟨(parseRespectsLimits ctxA [tkWord "x", tkWord "y"] 1).1,
   (parseRespectsLimits ctxA [] 0).2 (numberOfTyposAllowed ctxA) 1 (tkWord "z")
     [] ⟨ctxA, 5, none, [⟨0, 0, 0⟩]⟩ (by decide) (by decide)⟩

/-! ## C3 groundwork: prefix-flag bookkeeping -/

theorem NPfx_mono {c c2 : SearchContext} {lt : LocatedQueryTerm}
    (he : CtxExtends c c2) (h : NPfx c lt) : NPfx c2 lt := by
  obtain ⟨qt, hg, hpfx⟩ := h
  exact ⟨qt, he.1 _ _ hg, hpfx⟩

theorem SoftPfx_mono {c c2 : SearchContext} {lt : LocatedQueryTerm}
    (he : CtxExtends c c2) (h : SoftPfx c lt) : SoftPfx c2 lt := by
  obtain ⟨qt, hg, hpfx⟩ := h
  exact ⟨qt, he.1 _ _ hg, hpfx⟩

theorem GoodT_mono {c c2 : SearchContext} {lt : LocatedQueryTerm}
    (he : CtxExtends c c2) (h : GoodT c lt) : GoodT c2 lt := by
  obtain ⟨qt, hg, hrest⟩ := h
  refine ⟨qt, he.1 _ _ hg, ?_⟩
  rcases hrest with h | ⟨ph, pr, h1, h2, h3, h4⟩
  · exact Or.inl h
  · exact Or.inr ⟨ph, pr, h1, he.2.1 _ _ h2, h3, h4⟩

theorem NPfx_SoftPfx {c : SearchContext} {lt : LocatedQueryTerm}
    (h : NPfx c lt) : SoftPfx c lt := by
  obtain ⟨qt, hg, hpfx⟩ := h
  exact ⟨qt, hg, fun ht => absurd (hpfx ▸ ht) (by simp)⟩

theorem hardClose_charC (s : ParseState) :
    ∃ new, (hardClose s).2.1 = s.located ++ new ∧
      CtxExtends s.ctx (hardClose s).2.2 ∧
      ∀ lt ∈ new, NPfx (hardClose s).2.2 lt := by
  cases hp : s.phrase with
  | none =>
    exact ⟨[], by simp [hardClose, hp],
      by simpa [hardClose, hp] using ctxExtends_rfl s.ctx, by simp⟩
  | some pb =>
    cases hb : (pb.build s.ctx).1 with
    | some lt =>
      obtain ⟨-, -, -, qt, ph, hg, hpfx, -, -, -⟩ := build_some pb s.ctx lt hb
      refine ⟨[lt], by simp [hardClose, hp, hb],
        by simpa [hardClose, hp, hb] using build_extends pb s.ctx, ?_⟩
      intro x hx
      rw [List.mem_singleton] at hx
      subst hx
      exact ⟨qt, by simpa [hardClose, hp, hb] using hg, hpfx⟩
    | none =>
      exact ⟨[], by simp [hardClose, hp, hb],
        by simpa [hardClose, hp, hb] using build_extends pb s.ctx, by simp⟩

theorem quoteClose_charC (ph1 : Option PhraseBuilder)
    (loc1 : List LocatedQueryTerm) (c1 : SearchContext) (qc : Nat) :
    ∃ new, (quoteClose ph1 loc1 c1 qc).1 = loc1 ++ new ∧
      CtxExtends c1 (quoteClose ph1 loc1 c1 qc).2.1 ∧
      ∀ lt ∈ new, NPfx (quoteClose ph1 loc1 c1 qc).2.1 lt := by
  cases hp : ph1 with
  | none =>
    exact ⟨[], by simp [quoteClose],
      by simpa [quoteClose] using ctxExtends_rfl c1, by simp⟩
  | some pb =>
    cases hb : (pb.build c1).1 with
    | some lt =>
      obtain ⟨-, -, -, qt, ph, hg, hpfx, -, -, -⟩ := build_some pb c1 lt hb
      refine ⟨[lt], by simp [quoteClose, hb],
        by simpa [quoteClose, hb] using build_extends pb c1, ?_⟩
      intro x hx
      rw [List.mem_singleton] at hx
      subst hx
      exact ⟨qt, by simpa [quoteClose, hb] using hg, hpfx⟩
    | none =>
      exact ⟨[], by simp [quoteClose, hb],
        by simpa [quoteClose, hb] using build_extends pb c1, by simp⟩

/-- A non-terminal step only ever emits non-prefix terms. -/
theorem lqtStepC_nonterminal (nbrT : String → Nat) (tok : Token)
    (s : ParseState) :
    ∃ new, (lqtStep nbrT false tok s).located = s.located ++ new ∧
      CtxExtends s.ctx (lqtStep nbrT false tok s).ctx ∧
      ∀ lt ∈ new, NPfx (lqtStep nbrT false tok s).ctx lt := by
  cases hk : tok.kind with
  | Word =>
    cases hp : s.phrase with
    | some pb =>
      refine ⟨[], by simp [lqtStep, hk, hp], ?_, by simp⟩
      simpa [lqtStep, hk, hp] using (pushWord_char pb s.ctx tok _).1
    | none =>
      refine ⟨[⟨((termFromWord s.ctx tok.lemmaStr (nbrT tok.lemmaStr) false).2.term_interner.length),
        (s.pos + 1) % 65536, (s.pos + 1) % 65536⟩], ?_, ?_, ?_⟩
      · simp [lqtStep, hk, hp, emitWord, pushTerm]
      · simp only [lqtStep, hk, hp]
        simpa [emitWord] using
          ctxExtends_trans
            (termFromWord_extends s.ctx tok.lemmaStr (nbrT tok.lemmaStr) false)
            (pushTerm_extends _ _)
      · intro x hx
        rw [List.mem_singleton] at hx
        subst hx
        refine ⟨(termFromWord s.ctx tok.lemmaStr (nbrT tok.lemmaStr) false).1,
          ?_, rfl⟩
        simp only [lqtStep, hk, hp]
        simpa [emitWord, pushTerm] using pushTerm_get
          (termFromWord s.ctx tok.lemmaStr (nbrT tok.lemmaStr) false).2
          (termFromWord s.ctx tok.lemmaStr (nbrT tok.lemmaStr) false).1
  | StopWord =>
    cases hp : s.phrase with
    | some pb =>
      refine ⟨[], by simp [lqtStep, hk, hp], ?_, by simp⟩
      simpa [lqtStep, hk, hp] using (pushWord_char pb s.ctx tok _).1
    | none =>
      exact ⟨[], by simp [lqtStep, hk, hp],
        by simpa [lqtStep, hk, hp] using ctxExtends_rfl s.ctx, by simp⟩
  | Separator sk =>
    obtain ⟨n1, hn1, he1, hnp1⟩ := hardClose_charC s
    by_cases hq : tok.lemmaStr.data.count '"' = 0
    · cases sk with
      | Hard =>
        refine ⟨n1, by simp [lqtStep, String.toList, hk, hq, hn1], ?_, ?_⟩
        · simpa [lqtStep, String.toList, hk, hq] using he1
        · intro x hx
          have := hnp1 x hx
          simpa [lqtStep, String.toList, hk, hq] using this
      | Soft =>
        exact ⟨[], by simp [lqtStep, String.toList, hk, hq],
          by simpa [lqtStep, String.toList, hk, hq] using ctxExtends_rfl s.ctx,
          by simp⟩
    · cases sk with
      | Hard =>
        obtain ⟨n2, hn2, he2, hnp2⟩ :=
          quoteClose_charC (hardClose s).1 (hardClose s).2.1 (hardClose s).2.2
            (tok.lemmaStr.data.count '"')
        refine ⟨n1 ++ n2, ?_, ?_, ?_⟩
        · simp [lqtStep, String.toList, hk, hq]
          rw [hn2, hn1, List.append_assoc]
        · simpa [lqtStep, String.toList, hk, hq] using ctxExtends_trans he1 he2
        · intro x hx
          have hget : ∀ y, NPfx (quoteClose (hardClose s).1 (hardClose s).2.1
              (hardClose s).2.2 (tok.lemmaStr.data.count '"')).2.1 y →
              NPfx (lqtStep nbrT false tok s).ctx y := by
            intro y hy
            simpa [lqtStep, String.toList, hk, hq] using hy
          rcases List.mem_append.mp hx with hx | hx
          · exact hget x (NPfx_mono he2 (by
              simpa [lqtStep, String.toList, hk, hq] using hnp1 x hx))
          · exact hget x (hnp2 x hx)
      | Soft =>
        obtain ⟨n2, hn2, he2, hnp2⟩ :=
          quoteClose_charC s.phrase s.located s.ctx
            (tok.lemmaStr.data.count '"')
        refine ⟨n2, ?_, ?_, ?_⟩
        · simp [lqtStep, String.toList, hk, hq]
          exact hn2
        · simpa [lqtStep, String.toList, hk, hq] using he2
        · intro x hx
          simpa [lqtStep, String.toList, hk, hq] using hnp2 x hx
  | Unknown =>
    exact ⟨[], by simp [lqtStep, hk],
      by simpa [lqtStep, hk] using ctxExtends_rfl s.ctx, by simp⟩

/-- The separator and unknown branches never read `isLast`. -/
theorem lqtStep_isLast_irrel (nbrT : String → Nat) (b : Bool) (tok : Token)
    (s : ParseState)
    (hk : (∃ sk, tok.kind = .Separator sk) ∨ tok.kind = .Unknown) :
    lqtStep nbrT b tok s = lqtStep nbrT false tok s := by
  rcases hk with ⟨sk, hk⟩ | hk <;> simp [lqtStep, hk]

/-- A terminal content token: inside a phrase it emits nothing; outside a
phrase it emits exactly one located term whose query term has no phrase
(the prefix word push). -/
theorem lqtStep_terminal_content (nbrT : String → Nat) (tok : Token)
    (s : ParseState) (hk : tok.kind = .Word ∨ tok.kind = .StopWord) :
    (∀ pb, s.phrase = some pb →
      (lqtStep nbrT true tok s).located = s.located ∧
      CtxExtends s.ctx (lqtStep nbrT true tok s).ctx) ∧
    (s.phrase = none →
      (lqtStep nbrT true tok s).phrase = none ∧
      CtxExtends s.ctx (lqtStep nbrT true tok s).ctx ∧
      ∃ h qt, (lqtStep nbrT true tok s).located =
          s.located ++ [⟨h, (s.pos + 1) % 65536, (s.pos + 1) % 65536⟩] ∧
        termGet (lqtStep nbrT true tok s).ctx h = some qt ∧
        qt.zero_typo.phrase = none) := by
  constructor
  · intro pb hp
    constructor
    · rcases hk with hk | hk <;> simp [lqtStep, hk, hp]
    · rcases hk with hk | hk <;>
        simpa [lqtStep, hk, hp] using (pushWord_char pb s.ctx tok _).1
  · intro hp
    have hs' : lqtStep nbrT true tok s =
        emitWord nbrT true tok ((s.pos + 1) % 65536) s := by
      rcases hk with hk | hk <;> simp [lqtStep, hk, hp]
    refine ⟨by simp [hs', emitWord, hp], ?_, ?_⟩
    · rw [hs']
      simpa [emitWord] using
        ctxExtends_trans
          (termFromWord_extends s.ctx tok.lemmaStr (nbrT tok.lemmaStr) true)
          (pushTerm_extends _ _)
    · refine ⟨(termFromWord s.ctx tok.lemmaStr (nbrT tok.lemmaStr) true).2.term_interner.length,
        (termFromWord s.ctx tok.lemmaStr (nbrT tok.lemmaStr) true).1,
        by simp [hs', emitWord, pushTerm], ?_, rfl⟩
      rw [hs']
      simpa [emitWord, pushTerm] using pushTerm_get
        (termFromWord s.ctx tok.lemmaStr (nbrT tok.lemmaStr) true).2
        (termFromWord s.ctx tok.lemmaStr (nbrT tok.lemmaStr) true).1

/-- Master invariant for the prefix flag: starting from all-non-prefix
emitted terms, every final term resolves and is a prefix term only if it is
a plain word term, and every non-final term is non-prefix. -/
theorem lqtLoop_pfx_master (nbrT : String → Nat) (lim : Nat) :
    ∀ (ts : List Token) (s : ParseState),
      (∀ lt ∈ s.located, NPfx s.ctx lt) →
      (∀ lt ∈ (lqtLoop nbrT lim ts s).located,
        SoftPfx (lqtLoop nbrT lim ts s).ctx lt) ∧
      (∀ lt ∈ (lqtLoop nbrT lim ts s).located.dropLast,
        NPfx (lqtLoop nbrT lim ts s).ctx lt) := by
  intro ts
  induction ts with
  | nil =>
    intro s hinv
    cases hp : s.phrase with
    | none =>
      simp only [lqtLoop, hp]
      exact ⟨fun lt h => NPfx_SoftPfx (hinv lt h),
        fun lt h => hinv lt (List.dropLast_subset _ h)⟩
    | some pb =>
      have he := build_extends pb s.ctx
      cases hb : (pb.build s.ctx).1 with
      | none =>
        simp only [lqtLoop, hp, hb]
        exact ⟨fun lt h => NPfx_SoftPfx (NPfx_mono he (hinv lt h)),
          fun lt h => NPfx_mono he (hinv lt (List.dropLast_subset _ h))⟩
      | some lt0 =>
        obtain ⟨-, -, -, qt, ph, hg, hpfx, -, -, -⟩ := build_some pb s.ctx lt0 hb
        simp only [lqtLoop, hp, hb]
        constructor
        · intro lt hlt
          rcases List.mem_append.mp hlt with h | h
          · exact NPfx_SoftPfx (NPfx_mono he (hinv lt h))
          · rw [List.mem_singleton] at h
            subst h
            exact NPfx_SoftPfx ⟨qt, hg, hpfx⟩
        · intro lt hlt
          rw [List.dropLast_concat] at hlt
          exact NPfx_mono he (hinv lt hlt)
  | cons t rest ih =>
    intro s hinv
    by_cases hl : t.lemmaStr = ""
    · simpa [lqtLoop, hl] using ih s hinv
    · by_cases hlim : lim ≤ s.located.length
      · rw [lqtLoop_early_return nbrT lim t rest s hl hlim]
        exact ⟨fun lt h => NPfx_SoftPfx (hinv lt h),
          fun lt h => hinv lt (List.dropLast_subset _ h)⟩
      · rw [lqtLoop_cons nbrT lim t rest s hl hlim]
        cases rest with
        | cons r rs =>
          rw [show ((r :: rs).isEmpty) = false from rfl]
          obtain ⟨new, hnew, he, hnp⟩ := lqtStepC_nonterminal nbrT t s
          refine ih _ ?_
          intro lt hlt
          rw [hnew] at hlt
          rcases List.mem_append.mp hlt with h | h
          · exact NPfx_mono he (hinv lt h)
          · exact hnp lt h
        | nil =>
          rw [show (([] : List Token).isEmpty) = true from rfl]
          by_cases hcontent : t.kind = TokenKind.Word ∨ t.kind = TokenKind.StopWord
          · cases hp : s.phrase with
            | some pb =>
              obtain ⟨hloc, he⟩ :=
                (lqtStep_terminal_content nbrT t s hcontent).1 pb hp
              refine ih _ ?_
              intro lt hlt
              rw [hloc] at hlt
              exact NPfx_mono he (hinv lt hlt)
            | none =>
              obtain ⟨hph, he, h, qt, hloc, hg, hqph⟩ :=
                (lqtStep_terminal_content nbrT t s hcontent).2 hp
              have hfs : lqtLoop nbrT lim [] (lqtStep nbrT true t s) =
                  lqtStep nbrT true t s := by
                simp [lqtLoop, hph]
              rw [hfs]
              constructor
              · intro lt hlt
                rw [hloc] at hlt
                rcases List.mem_append.mp hlt with hm | hm
                · exact NPfx_SoftPfx (NPfx_mono he (hinv lt hm))
                · rw [List.mem_singleton] at hm
                  subst hm
                  exact ⟨qt, hg, fun _ => hqph⟩
              · intro lt hlt
                rw [hloc, List.dropLast_concat] at hlt
                exact NPfx_mono he (hinv lt hlt)
          · have hsep : (∃ sk, t.kind = .Separator sk) ∨ t.kind = .Unknown := by
              cases hk : t.kind with
              | Word => exact absurd (Or.inl hk) hcontent
              | StopWord => exact absurd (Or.inr hk) hcontent
              | Separator sk => exact Or.inl ⟨sk, rfl⟩
              | Unknown => exact Or.inr rfl
            rw [lqtStep_isLast_irrel nbrT true t s hsep]
            obtain ⟨new, hnew, he, hnp⟩ := lqtStepC_nonterminal nbrT t s
            refine ih _ ?_
            intro lt hlt
            rw [hnew] at hlt
            rcases List.mem_append.mp hlt with h | h
            · exact NPfx_mono he (hinv lt h)
            · exact hnp lt h

/-- When the truncated stream's last token is not a content token with a
non-empty lemma, every emitted term is non-prefix. -/
theorem lqtLoop_no_terminal_content (nbrT : String → Nat) (lim : Nat) :
    ∀ (ts : List Token) (s : ParseState),
      (∀ lt ∈ s.located, NPfx s.ctx lt) →
      (∀ tok, ts.getLast? = some tok →
        (tok.kind = TokenKind.Word ∨ tok.kind = TokenKind.StopWord) →
        tok.lemmaStr = "") →
      ∀ lt ∈ (lqtLoop nbrT lim ts s).located,
        NPfx (lqtLoop nbrT lim ts s).ctx lt := by
  intro ts
  induction ts with
  | nil =>
    intro s hinv _
    cases hp : s.phrase with
    | none =>
      simp only [lqtLoop, hp]
      exact hinv
    | some pb =>
      have he := build_extends pb s.ctx
      cases hb : (pb.build s.ctx).1 with
      | none =>
        simp only [lqtLoop, hp, hb]
        exact fun lt h => NPfx_mono he (hinv lt h)
      | some lt0 =>
        obtain ⟨-, -, -, qt, ph, hg, hpfx, -, -, -⟩ := build_some pb s.ctx lt0 hb
        simp only [lqtLoop, hp, hb]
        intro lt hlt
        rcases List.mem_append.mp hlt with h | h
        · exact NPfx_mono he (hinv lt h)
        · rw [List.mem_singleton] at h
          subst h
          exact ⟨qt, hg, hpfx⟩
  | cons t rest ih =>
    intro s hinv hlast
    by_cases hl : t.lemmaStr = ""
    · cases rest with
      | nil =>
        have hfs : lqtLoop nbrT lim [t] s = lqtLoop nbrT lim [] s := by
          simp [lqtLoop, hl]
        rw [hfs]
        exact ih s hinv (by simp)
      | cons r rs =>
        have hfs : lqtLoop nbrT lim (t :: r :: rs) s =
            lqtLoop nbrT lim (r :: rs) s := by
          simp [lqtLoop, hl]
        rw [hfs]
        refine ih s hinv ?_
        intro tok htok
        exact hlast tok (by rwa [List.getLast?_cons_cons])
    · by_cases hlim : lim ≤ s.located.length
      · rw [lqtLoop_early_return nbrT lim t rest s hl hlim]
        exact hinv
      · rw [lqtLoop_cons nbrT lim t rest s hl hlim]
        cases rest with
        | cons r rs =>
          rw [show ((r :: rs).isEmpty) = false from rfl]
          obtain ⟨new, hnew, he, hnp⟩ := lqtStepC_nonterminal nbrT t s
          refine ih _ ?_ ?_
          · intro lt hlt
            rw [hnew] at hlt
            rcases List.mem_append.mp hlt with h | h
            · exact NPfx_mono he (hinv lt h)
            · exact hnp lt h
          · intro tok htok
            exact hlast tok (by rwa [List.getLast?_cons_cons])
        | nil =>
          rw [show (([] : List Token).isEmpty) = true from rfl]
          have hsep : (∃ sk, t.kind = .Separator sk) ∨ t.kind = .Unknown := by
            cases hk : t.kind with
            | Word => exact absurd hl (by
                simpa using hlast t (by simp) (Or.inl hk))
            | StopWord => exact absurd hl (by
                simpa using hlast t (by simp) (Or.inr hk))
            | Separator sk => exact Or.inl ⟨sk, rfl⟩
            | Unknown => exact Or.inr rfl
          rw [lqtStep_isLast_irrel nbrT true t s hsep]
          obtain ⟨new, hnew, he, hnp⟩ := lqtStepC_nonterminal nbrT t s
          refine ih _ ?_ (by simp)
          intro lt hlt
          rw [hnew] at hlt
          rcases List.mem_append.mp hlt with h | h
          · exact NPfx_mono he (hinv lt h)
          · exact hnp lt h

/-- C3 (amended): phrase terms never carry `is_prefix = true`; every term
other than the last is non-prefix (so at most one term, the last, is a
prefix term); and if a prefix term is present then the truncated stream's
final token is a `Word` or `StopWord` with a non-empty lemma.  (The
converse fails: a trailing separator, an open phrase, or the words limit
suppresses the prefix term, and a terminal `StopWord` — not only a `Word` —
produces one.) -/
theorem pfxFlagStructure (c : SearchContext) (query : List Token)
    (wl : Option Nat) :
    (∀ lt ∈ (parseFinal c query wl).located,
      resolvedPhraseSome (parseFinal c query wl).ctx lt = true →
      resolvedPfx (parseFinal c query wl).ctx lt = false) ∧
    (∀ lt ∈ (parseFinal c query wl).located.dropLast,
      resolvedPfx (parseFinal c query wl).ctx lt = false) ∧
    ((∃ lt ∈ (parseFinal c query wl).located,
        resolvedPfx (parseFinal c query wl).ctx lt = true) →
      ∃ tok, (query.take MAX_TOKEN_COUNT).getLast? = some tok ∧
        (tok.kind = TokenKind.Word ∨ tok.kind = TokenKind.StopWord) ∧
        tok.lemmaStr ≠ "") := by
  simp only [parseFinal]
  set L := wl.getD (2 ^ 64 - 1)
  obtain ⟨hP1, hP2⟩ := lqtLoop_pfx_master (numberOfTyposAllowed c)
    L (query.take MAX_TOKEN_COUNT) ⟨c, u16MAX, none, []⟩ (by simp)
  refine ⟨?_, ?_, ?_⟩
  · intro lt hlt hps
    obtain ⟨qt, hg, himp⟩ := hP1 lt hlt
    cases hpfx : qt.isPfx with
    | false => simp [resolvedPfx, hg, hpfx]
    | true =>
      have hph := himp hpfx
      rw [resolvedPhraseSome] at hps
      simp [hg, hph] at hps
  · intro lt hlt
    obtain ⟨qt, hg, hpfx⟩ := hP2 lt hlt
    simp [resolvedPfx, hg, hpfx]
  · rintro ⟨lt, hlt, hpfx⟩
    by_contra hno
    push_neg at hno
    have hall := lqtLoop_no_terminal_content (numberOfTyposAllowed c)
      L (query.take MAX_TOKEN_COUNT)
      ⟨c, u16MAX, none, []⟩ (by simp)
      (fun tok ht hk => hno tok ht hk)
    obtain ⟨qt, hg, hq⟩ := hall lt hlt
    rw [resolvedPfx] at hpfx
    simp [hg, hq] at hpfx

/-- Witness for C3's amended theorem: the single-word query emits a prefix
term, so the final token is a non-empty content token. -/
theorem pfxFlagStructure_witness :
    ∃ tok, (([tkWord "a"] : List Token).take MAX_TOKEN_COUNT).getLast? =
        some tok ∧
      (tok.kind = TokenKind.Word ∨ tok.kind = TokenKind.StopWord) ∧
      tok.lemmaStr ≠ "" :=
  (pfxFlagStructure ctxA [tkWord "a"] none).2.2 (by decide)

/-! ## C4 groundwork: emitted phrase terms are well-formed -/

theorem hardClose_charD (s : ParseState)
    (hB : ∀ pb, s.phrase = some pb → pb.words ≠ [] → pb.start ≤ pb.stop) :
    ∃ new, (hardClose s).2.1 = s.located ++ new ∧
      CtxExtends s.ctx (hardClose s).2.2 ∧
      ∀ lt ∈ new, GoodT (hardClose s).2.2 lt := by
  cases hp : s.phrase with
  | none =>
    exact ⟨[], by simp [hardClose, hp],
      by simpa [hardClose, hp] using ctxExtends_rfl s.ctx, by simp⟩
  | some pb =>
    cases hb : (pb.build s.ctx).1 with
    | some lt =>
      obtain ⟨hw, hst, hen, qt, ph, hg, -, -, hqph, hphg⟩ :=
        build_some pb s.ctx lt hb
      refine ⟨[lt], by simp [hardClose, hp, hb],
        by simpa [hardClose, hp, hb] using build_extends pb s.ctx, ?_⟩
      intro x hx
      rw [List.mem_singleton] at hx
      subst hx
      refine ⟨qt, by simpa [hardClose, hp, hb] using hg, Or.inr ⟨ph, ⟨pb.words⟩,
        hqph, by simpa [hardClose, hp, hb] using hphg, by simpa using hw, ?_⟩⟩
      rw [hst, hen]
      exact hB pb hp hw
    | none =>
      exact ⟨[], by simp [hardClose, hp, hb],
        by simpa [hardClose, hp, hb] using build_extends pb s.ctx, by simp⟩

theorem quoteClose_charD (ph1 : Option PhraseBuilder)
    (loc1 : List LocatedQueryTerm) (c1 : SearchContext) (qc : Nat)
    (hB : ∀ pb, ph1 = some pb → pb.words ≠ [] → pb.start ≤ pb.stop) :
    ∃ new, (quoteClose ph1 loc1 c1 qc).1 = loc1 ++ new ∧
      CtxExtends c1 (quoteClose ph1 loc1 c1 qc).2.1 ∧
      ∀ lt ∈ new, GoodT (quoteClose ph1 loc1 c1 qc).2.1 lt := by
  cases hp : ph1 with
  | none =>
    exact ⟨[], by simp [quoteClose],
      by simpa [quoteClose] using ctxExtends_rfl c1, by simp⟩
  | some pb =>
    cases hb : (pb.build c1).1 with
    | some lt =>
      obtain ⟨hw, hst, hen, qt, ph, hg, -, -, hqph, hphg⟩ :=
        build_some pb c1 lt hb
      refine ⟨[lt], by simp [quoteClose, hb],
        by simpa [quoteClose, hb] using build_extends pb c1, ?_⟩
      intro x hx
      rw [List.mem_singleton] at hx
      subst hx
      refine ⟨qt, by simpa [quoteClose, hb] using hg, Or.inr ⟨ph, ⟨pb.words⟩,
        hqph, by simpa [quoteClose, hb] using hphg, by simpa using hw, ?_⟩⟩
      rw [hst, hen]
      exact hB pb hp hw
    | none =>
      exact ⟨[], by simp [quoteClose, hb],
        by simpa [quoteClose, hb] using build_extends pb c1, by simp⟩


theorem lqtStepD (nbrT : String → Nat) (isLast : Bool) (tok : Token)
    (s : ParseState) (n : Nat) (hInv : PosInv s (n + 1)) :
    ∃ new, (lqtStep nbrT isLast tok s).located = s.located ++ new ∧
      CtxExtends s.ctx (lqtStep nbrT isLast tok s).ctx ∧
      (∀ lt ∈ new, GoodT (lqtStep nbrT isLast tok s).ctx lt) ∧
      PosInv (lqtStep nbrT isLast tok s) n := by
  have hu16 : u16MAX = 65535 := rfl
  have hBstart : ∀ pb, s.phrase = some pb → pb.words ≠ [] →
      pb.start ≤ pb.stop := by
    intro pb hp hw
    rcases hInv with ⟨-, -, hemp⟩ | ⟨-, hB⟩
    · exact absurd (hemp pb hp) hw
    · exact (hB pb hp hw).1
  have hpcases : (s.pos = u16MAX ∧ (s.pos + 1) % 65536 = 0) ∨
      (s.pos + (n + 1) ≤ 65535 ∧ (s.pos + 1) % 65536 = s.pos + 1) := by
    rcases hInv with ⟨hpos, -, -⟩ | ⟨hpos, -⟩
    · exact Or.inl ⟨hpos, by simp [hpos, u16MAX]⟩
    · exact Or.inr ⟨hpos, Nat.mod_eq_of_lt (by omega)⟩
  have hn65 : n ≤ 65535 := by
    rcases hInv with ⟨-, hn, -⟩ | ⟨hp, -⟩ <;> omega
  have hpbound : (s.pos + 1) % 65536 + n ≤ 65535 := by
    rcases hpcases with ⟨-, hp⟩ | ⟨hb, hp⟩ <;> rw [hp] <;> omega
  have hword : (tok.kind = TokenKind.Word ∨ tok.kind = TokenKind.StopWord) →
      ∃ new, (lqtStep nbrT isLast tok s).located = s.located ++ new ∧
      CtxExtends s.ctx (lqtStep nbrT isLast tok s).ctx ∧
      (∀ lt ∈ new, GoodT (lqtStep nbrT isLast tok s).ctx lt) ∧
      PosInv (lqtStep nbrT isLast tok s) n := by
    intro hkor
    cases hp : s.phrase with
    | some pb =>
      have hs' : lqtStep nbrT isLast tok s =
          { s with
            pos := (s.pos + 1) % 65536
            phrase := some (pb.pushWord s.ctx tok ((s.pos + 1) % 65536)).1
            ctx := (pb.pushWord s.ctx tok ((s.pos + 1) % 65536)).2 } := by
        rcases hkor with hk | hk <;> simp [lqtStep, hk, hp]
      obtain ⟨hpw1, hpw2, hpw3, hpw4⟩ :=
        pushWord_char pb s.ctx tok ((s.pos + 1) % 65536)
      refine ⟨[], by simp [hs'], by rw [hs']; exact hpw1, by simp,
        Or.inr ?_⟩
      rw [hs']
      refine ⟨by simpa using hpbound, ?_⟩
      intro pb' hpb' hw'
      simp only [Option.some.injEq] at hpb'
      subst hpb'
      rw [hpw3, hpw4]
      by_cases hwe : pb.words = []
      · simp [hwe]
      · simp only [hwe, if_false]
        rcases hInv with ⟨-, -, hemp⟩ | ⟨hbnd, hB⟩
        · exact absurd (hemp pb hp) hwe
        · obtain ⟨h1, h2⟩ := hB pb hp hwe
          rcases hpcases with ⟨hm, -⟩ | ⟨-, hp1⟩
          · omega
          · constructor <;> omega
    | none =>
      have hgood : ∀ b : Bool,
          ∃ new, (emitWord nbrT b tok ((s.pos + 1) % 65536) s).located =
            s.located ++ new ∧
          CtxExtends s.ctx (emitWord nbrT b tok ((s.pos + 1) % 65536) s).ctx ∧
          (∀ lt ∈ new,
            GoodT (emitWord nbrT b tok ((s.pos + 1) % 65536) s).ctx lt) ∧
          (emitWord nbrT b tok ((s.pos + 1) % 65536) s).phrase = none ∧
          (emitWord nbrT b tok ((s.pos + 1) % 65536) s).pos =
            (s.pos + 1) % 65536 := by
        intro b
        refine ⟨_, rfl, ?_, ?_, by simp [emitWord, hp], rfl⟩
        · simpa [emitWord] using ctxExtends_trans
            (termFromWord_extends s.ctx tok.lemmaStr (nbrT tok.lemmaStr) b)
            (pushTerm_extends _ _)
        · intro x hx
          rw [List.mem_singleton] at hx
          subst hx
          refine ⟨(termFromWord s.ctx tok.lemmaStr (nbrT tok.lemmaStr) b).1,
            ?_, Or.inl rfl⟩
          simpa [emitWord, pushTerm] using pushTerm_get
            (termFromWord s.ctx tok.lemmaStr (nbrT tok.lemmaStr) b).2
            (termFromWord s.ctx tok.lemmaStr (nbrT tok.lemmaStr) b).1
      have hinv' : ∀ s' : ParseState, s'.phrase = none →
          s'.pos = (s.pos + 1) % 65536 → PosInv s' n := by
        intro s' h1 h2
        refine Or.inr ⟨by rw [h2]; exact hpbound, ?_⟩
        intro pb hpb
        rw [h1] at hpb
        exact absurd hpb (by simp)
      cases isLast with
      | true =>
        have hs' : lqtStep nbrT true tok s =
            emitWord nbrT true tok ((s.pos + 1) % 65536) s := by
          rcases hkor with hk | hk <;> simp [lqtStep, hk, hp]
        obtain ⟨new, h1, h2, h3, h4, h5⟩ := hgood true
        exact ⟨new, by rw [hs']; exact h1, by rw [hs']; exact h2,
          by rw [hs']; exact h3, hinv' _ (by rw [hs']; exact h4)
            (by rw [hs']; exact h5)⟩
      | false =>
        rcases hkor with hk | hk
        · have hs' : lqtStep nbrT false tok s =
              emitWord nbrT false tok ((s.pos + 1) % 65536) s := by
            simp [lqtStep, hk, hp]
          obtain ⟨new, h1, h2, h3, h4, h5⟩ := hgood false
          exact ⟨new, by rw [hs']; exact h1, by rw [hs']; exact h2,
            by rw [hs']; exact h3, hinv' _ (by rw [hs']; exact h4)
              (by rw [hs']; exact h5)⟩
        · have hs' : lqtStep nbrT false tok s =
              { s with pos := (s.pos + 1) % 65536 } := by
            simp [lqtStep, hk, hp]
          refine ⟨[], by simp [hs'], by rw [hs']; exact ctxExtends_rfl s.ctx,
            by simp, hinv' _ (by rw [hs']; exact hp) (by rw [hs'])⟩
  cases hk : tok.kind with
  | Word => exact hword (Or.inl hk)
  | StopWord => exact hword (Or.inr hk)
  | Separator sk =>
    have hcempty : ∀ pb, (hardClose s).1 = some pb → pb.words = [] := by
      intro pb hpb
      cases hps : s.phrase with
      | none => simp [hardClose, hps] at hpb
      | some pb0 =>
        cases hb : (pb0.build s.ctx).1 with
        | some lt =>
          simp only [hardClose, hps, hb, Option.some.injEq] at hpb
          subst hpb
          rfl
        | none =>
          simp only [hardClose, hps, hb, Option.some.injEq] at hpb
          subst hpb
          rfl
    obtain ⟨n1, hn1, he1, hg1⟩ := hardClose_charD s hBstart
    by_cases hq : tok.lemmaStr.data.count '"' = 0
    · cases sk with
      | Hard =>
        have hs'ctx : (lqtStep nbrT isLast tok s).ctx = (hardClose s).2.2 := by
          simp [lqtStep, String.toList, hk, hq]
        have hs'loc : (lqtStep nbrT isLast tok s).located =
            (hardClose s).2.1 := by
          simp [lqtStep, String.toList, hk, hq]
        have hs'ph : (lqtStep nbrT isLast tok s).phrase = (hardClose s).1 := by
          simp [lqtStep, String.toList, hk, hq]
        have hs'pos : (lqtStep nbrT isLast tok s).pos =
            (s.pos + 1) % 65536 := by
          simp [lqtStep, String.toList, hk, hq]
        refine ⟨n1, by rw [hs'loc]; exact hn1, by rw [hs'ctx]; exact he1,
          by rw [hs'ctx]; exact hg1, Or.inr ?_⟩
        rw [hs'pos, hs'ph]
        exact ⟨hpbound, fun pb hpb hw => absurd (hcempty pb hpb) hw⟩
      | Soft =>
        have hs' : lqtStep nbrT isLast tok s =
            { ctx := s.ctx, pos := s.pos, phrase := s.phrase,
              located := s.located } := by
          simp [lqtStep, String.toList, hk, hq]
        refine ⟨[], by simp [hs'], by rw [hs']; exact ctxExtends_rfl s.ctx,
          by simp, ?_⟩
        rw [hs']
        rcases hInv with ⟨hpos, hnn, hemp⟩ | ⟨hpos, hB⟩
        · exact Or.inl ⟨hpos, by omega, hemp⟩
        · exact Or.inr ⟨by dsimp only; omega, fun pb hpb hw => hB pb hpb hw⟩
    · cases sk with
      | Hard =>
        obtain ⟨n2, hn2, he2, hg2⟩ :=
          quoteClose_charD (hardClose s).1 (hardClose s).2.1 (hardClose s).2.2
            (tok.lemmaStr.data.count '"')
            (fun pb hpb hw => absurd (hcempty pb hpb) hw)
        have hs'ctx : (lqtStep nbrT isLast tok s).ctx =
            (quoteClose (hardClose s).1 (hardClose s).2.1 (hardClose s).2.2
              (tok.lemmaStr.data.count '"')).2.1 := by
          simp [lqtStep, String.toList, hk, hq]
        have hs'loc : (lqtStep nbrT isLast tok s).located =
            (quoteClose (hardClose s).1 (hardClose s).2.1 (hardClose s).2.2
              (tok.lemmaStr.data.count '"')).1 := by
          simp [lqtStep, String.toList, hk, hq]
        have hs'pos : (lqtStep nbrT isLast tok s).pos =
            (s.pos + 1) % 65536 := by
          simp [lqtStep, String.toList, hk, hq]
        have hs'ph : (lqtStep nbrT isLast tok s).phrase = none ∨
            (lqtStep nbrT isLast tok s).phrase = some PhraseBuilder.empty := by
          simp only [lqtStep, String.toList, hk]
          by_cases hodd : (quoteClose (hardClose s).1 (hardClose s).2.1
              (hardClose s).2.2 (tok.lemmaStr.data.count '"')).2.2 % 2 = 1 <;>
            simp [hq, hodd]
        refine ⟨n1 ++ n2, ?_, ?_, ?_, Or.inr ?_⟩
        · rw [hs'loc, hn2, hn1, List.append_assoc]
        · rw [hs'ctx]
          exact ctxExtends_trans he1 he2
        · intro x hx
          rw [hs'ctx]
          rcases List.mem_append.mp hx with h | h
          · exact GoodT_mono he2 (hg1 x h)
          · exact hg2 x h
        · rw [hs'pos]
          refine ⟨hpbound, ?_⟩
          intro pb hpb hw
          rcases hs'ph with h | h
          · rw [h] at hpb
            exact absurd hpb (by simp)
          · rw [h] at hpb
            simp only [Option.some.injEq] at hpb
            subst hpb
            exact absurd rfl hw
      | Soft =>
        obtain ⟨n2, hn2, he2, hg2⟩ :=
          quoteClose_charD s.phrase s.located s.ctx
            (tok.lemmaStr.data.count '"')
            (fun pb hpb hw => hBstart pb hpb hw)
        have hs'ctx : (lqtStep nbrT isLast tok s).ctx =
            (quoteClose s.phrase s.located s.ctx
              (tok.lemmaStr.data.count '"')).2.1 := by
          simp [lqtStep, String.toList, hk, hq]
        have hs'loc : (lqtStep nbrT isLast tok s).located =
            (quoteClose s.phrase s.located s.ctx
              (tok.lemmaStr.data.count '"')).1 := by
          simp [lqtStep, String.toList, hk, hq]
        have hs'pos : (lqtStep nbrT isLast tok s).pos = s.pos := by
          simp [lqtStep, String.toList, hk, hq]
        have hs'ph : (lqtStep nbrT isLast tok s).phrase = none ∨
            (lqtStep nbrT isLast tok s).phrase = some PhraseBuilder.empty := by
          simp only [lqtStep, String.toList, hk]
          by_cases hodd : (quoteClose s.phrase s.located s.ctx
              (tok.lemmaStr.data.count '"')).2.2 % 2 = 1 <;>
            simp [hq, hodd]
        have hemp' : ∀ pb, (lqtStep nbrT isLast tok s).phrase = some pb →
            pb.words = [] := by
          intro pb hpb
          rcases hs'ph with h | h
          · rw [h] at hpb
            exact absurd hpb (by simp)
          · rw [h] at hpb
            simp only [Option.some.injEq] at hpb
            subst hpb
            rfl
        refine ⟨n2, ?_, ?_, ?_, ?_⟩
        · rw [hs'loc]
          exact hn2
        · rw [hs'ctx]
          exact he2
        · intro x hx
          rw [hs'ctx]
          exact hg2 x hx
        · rcases hInv with ⟨hpos, hnn, -⟩ | ⟨hpos, -⟩
          · exact Or.inl ⟨by rw [hs'pos]; exact hpos, by omega, hemp'⟩
          · refine Or.inr ⟨by rw [hs'pos]; omega, ?_⟩
            intro pb hpb hw
            exact absurd (hemp' pb hpb) hw
  | Unknown =>
    have hs' : lqtStep nbrT isLast tok s = s := by simp [lqtStep, hk]
    refine ⟨[], by simp [hs'], by rw [hs']; exact ctxExtends_rfl s.ctx,
      by simp, ?_⟩
    rw [hs']
    rcases hInv with ⟨hpos, hnn, hemp⟩ | ⟨hpos, hB⟩
    · exact Or.inl ⟨hpos, by omega, hemp⟩
    · exact Or.inr ⟨by omega, hB⟩

theorem PosInv_mono_len (s : ParseState) {m n : Nat} (h : n ≤ m)
    (hp : PosInv s m) : PosInv s n := by
  rcases hp with ⟨h1, h2, h3⟩ | ⟨h1, h2⟩
  · exact Or.inl ⟨h1, by omega, h3⟩
  · exact Or.inr ⟨by omega, h2⟩

/-- Master invariant for emitted phrase terms: under the position invariant,
every emitted term is `GoodT` — it resolves, and if it is a phrase term its
phrase is non-empty and its position range is ordered. -/
theorem lqtLoop_goodT_master (nbrT : String → Nat) (lim : Nat) :
    ∀ (ts : List Token) (s : ParseState),
      PosInv s ts.length →
      (∀ lt ∈ s.located, GoodT s.ctx lt) →
      ∀ lt ∈ (lqtLoop nbrT lim ts s).located,
        GoodT (lqtLoop nbrT lim ts s).ctx lt := by
  intro ts
  induction ts with
  | nil =>
    intro s hpos hinv
    cases hp : s.phrase with
    | none =>
      simp only [lqtLoop, hp]
      exact hinv
    | some pb =>
      have he := build_extends pb s.ctx
      cases hb : (pb.build s.ctx).1 with
      | none =>
        simp only [lqtLoop, hp, hb]
        exact fun lt h => GoodT_mono he (hinv lt h)
      | some lt0 =>
        obtain ⟨hw, hst, hen, qt, ph, hg, -, -, hqph, hphg⟩ :=
          build_some pb s.ctx lt0 hb
        have hBs : pb.start ≤ pb.stop := by
          rcases hpos with ⟨-, -, hemp⟩ | ⟨-, hB⟩
          · exact absurd (hemp pb hp) hw
          · exact (hB pb hp hw).1
        simp only [lqtLoop, hp, hb]
        intro lt hlt
        rcases List.mem_append.mp hlt with h | h
        · exact GoodT_mono he (hinv lt h)
        · rw [List.mem_singleton] at h
          subst h
          exact ⟨qt, hg, Or.inr ⟨ph, ⟨pb.words⟩, hqph, hphg, by simpa using hw,
            by rw [hst, hen]; exact hBs⟩⟩
  | cons t rest ih =>
    intro s hpos hinv
    rw [List.length_cons] at hpos
    by_cases hl : t.lemmaStr = ""
    · have hfs : lqtLoop nbrT lim (t :: rest) s = lqtLoop nbrT lim rest s := by
        simp [lqtLoop, hl]
      rw [hfs]
      exact ih s (PosInv_mono_len s (Nat.le_succ _) hpos) hinv
    · by_cases hlim : lim ≤ s.located.length
      · rw [lqtLoop_early_return nbrT lim t rest s hl hlim]
        exact hinv
      · rw [lqtLoop_cons nbrT lim t rest s hl hlim]
        obtain ⟨new, hnew, he, hgood, hinv'⟩ :=
          lqtStepD nbrT rest.isEmpty t s rest.length hpos
        refine ih _ hinv' ?_
        intro lt hlt
        rw [hnew] at hlt
        rcases List.mem_append.mp hlt with h | h
        · exact GoodT_mono he (hinv lt h)
        · exact hgood lt h

/-- C4 (amended): every phrase term emitted by `parse` has
`positions.end ≥ positions.start` and its interned phrase has at least one
slot; phrases with no slot at all are discarded.  (A phrase whose slots are
all `None` — only stop-words between quotes — is still emitted.) -/
theorem phraseTermsNonemptyOrdered (c : SearchContext) (query : List Token)
    (wl : Option Nat) :
    ∀ lt ∈ (parseFinal c query wl).located, ∀ pr,
      phraseOfTerm (parseFinal c query wl).ctx lt = some pr →
      pr.words ≠ [] ∧ lt.posStart ≤ lt.posEnd := by
  simp only [parseFinal]
  set L := wl.getD (2 ^ 64 - 1)
  have hlen : (query.take MAX_TOKEN_COUNT).length ≤ 65535 := by
    have h1 := List.length_take_le MAX_TOKEN_COUNT query
    have h2 : MAX_TOKEN_COUNT = 1000 := rfl
    omega
  have hmaster := lqtLoop_goodT_master (numberOfTyposAllowed c) L
    (query.take MAX_TOKEN_COUNT) ⟨c, u16MAX, none, []⟩
    (Or.inl ⟨rfl, hlen, by simp⟩) (by simp)
  intro lt hlt pr hpr
  obtain ⟨qt, hg, hdis⟩ := hmaster lt hlt
  rcases hdis with hnone | ⟨ph, pr', hqph, hphg, hwne, hle⟩
  · rw [phraseOfTerm] at hpr
    simp [hg, hnone] at hpr
  · rw [phraseOfTerm] at hpr
    simp only [hg, hqph, hphg] at hpr
    rw [Option.some.injEq] at hpr
    subst hpr
    exact ⟨hwne, hle⟩

/-- Witness for C4's amended theorem at the first phrase of the C6
scenario. -/
theorem phraseTermsNonemptyOrdered_witness :
    (⟨[some 0]⟩ : Phrase).words ≠ [] ∧
    (⟨0, 0, 0⟩ : LocatedQueryTerm).posStart ≤
      (⟨0, 0, 0⟩ : LocatedQueryTerm).posEnd :=
  phraseTermsNonemptyOrdered ctxA qs6 none ⟨0, 0, 0⟩ (by decide) ⟨[some 0]⟩
    (by decide)

/-! ## C7/C8/C10 groundwork: characterizing `make_ngram` -/

theorem phraseCheck_char (c : SearchContext) :
    ∀ terms : List LocatedQueryTerm,
      (∀ lt ∈ terms, ∃ qt, termGet c lt.value = some qt) →
      ∃ b, phraseCheck c terms = some b ∧
        (b = true ↔ ∃ lt ∈ terms, ∃ qt, termGet c lt.value = some qt ∧
          qt.zero_typo.phrase.isSome = true) := by
  intro terms
  induction terms with
  | nil =>
    intro _
    exact ⟨false, by simp [phraseCheck], by simp⟩
  | cons t ts ih =>
    intro h
    obtain ⟨qt, hqt⟩ := h t (by simp)
    by_cases hps : qt.zero_typo.phrase.isSome = true
    · refine ⟨true, by simp [phraseCheck, hqt, hps], ?_⟩
      simp only [true_iff]
      exact ⟨t, by simp, qt, hqt, hps⟩
    · obtain ⟨b, hpc, hiff⟩ := ih (fun lt hlt => h lt (by simp [hlt]))
      refine ⟨b, ?_, ?_⟩
      · simp only [phraseCheck, hqt]
        simp [hps, hpc]
      · rw [hiff]
        constructor
        · rintro ⟨lt, hlt, qt', hqt', hps'⟩
          exact ⟨lt, by simp [hlt], qt', hqt', hps'⟩
        · rintro ⟨lt, hlt, qt', hqt', hps'⟩
          rcases List.mem_cons.mp hlt with rfl | hlt
          · rw [hqt] at hqt'
            rw [Option.some.injEq] at hqt'
            subst hqt'
            exact absurd hps' hps
          · exact ⟨lt, hlt, qt', hqt', hps'⟩

theorem collectWords_char (c : SearchContext) :
    ∀ terms : List LocatedQueryTerm,
      (∀ lt ∈ terms, ∃ qt, termGet c lt.value = some qt) →
      ∃ r, collectWords c terms = some r ∧
        (r = none ↔ ∃ lt ∈ terms, ∃ qt, termGet c lt.value = some qt ∧
          originalSingleWord qt = none) ∧
        (∀ hs, r = some hs → ∀ x ∈ hs, ∃ lt ∈ terms,
          ∃ qt, termGet c lt.value = some qt ∧ qt.original = x) := by
  intro terms
  induction terms with
  | nil =>
    intro _
    exact ⟨some [], by simp [collectWords], by simp, by simp⟩
  | cons t ts ih =>
    intro h
    obtain ⟨qt, hqt⟩ := h t (by simp)
    cases hosw : originalSingleWord qt with
    | none =>
      refine ⟨none, by simp [collectWords, hqt, hosw], ?_, by simp⟩
      simp only [true_iff]
      exact ⟨t, by simp, qt, hqt, hosw⟩
    | some x =>
      obtain ⟨r, hcw, hiff, hmem⟩ := ih (fun lt hlt => h lt (by simp [hlt]))
      cases r with
      | none =>
        refine ⟨none, by simp [collectWords, hqt, hosw, hcw], ?_, by simp⟩
        simp only [true_iff]
        obtain ⟨lt, hlt, qt', hqt', hosw'⟩ := hiff.mp rfl
        exact ⟨lt, by simp [hlt], qt', hqt', hosw'⟩
      | some hs =>
        refine ⟨some (x :: hs), by simp [collectWords, hqt, hosw, hcw], ?_, ?_⟩
        · constructor
          · intro hcontra
            exact absurd hcontra (by simp)
          · rintro ⟨lt, hlt, qt', hqt', hosw'⟩
            exfalso
            rcases List.mem_cons.mp hlt with rfl | hlt
            · rw [hqt] at hqt'
              rw [Option.some.injEq] at hqt'
              subst hqt'
              rw [hosw] at hosw'
              exact absurd hosw' (by simp)
            · exact (by simp : ¬ (some hs = none))
                (hiff.mpr ⟨lt, hlt, qt', hqt', hosw'⟩)
        · intro hs' hhs' y hy
          rw [Option.some.injEq] at hhs'
          subst hhs'
          rcases List.mem_cons.mp hy with rfl | hy
          · refine ⟨t, by simp, qt, hqt, ?_⟩
            rw [originalSingleWord] at hosw
            split at hosw
            · exact absurd hosw (by simp)
            · rw [Option.some.injEq] at hosw
              exact hosw
          · obtain ⟨lt, hlt, qt', hqt', ho⟩ := hmem hs rfl y hy
            exact ⟨lt, by simp [hlt], qt', hqt', ho⟩

theorem resolveWords_total (c : SearchContext) :
    ∀ hs : List Nat, (∀ x ∈ hs, ∃ w, c.word_interner.get x = some w) →
      ∃ ws, resolveWords c hs = some ws := by
  intro hs
  induction hs with
  | nil => exact fun _ => ⟨[], rfl⟩
  | cons x xs ih =>
    intro h
    obtain ⟨w, hw⟩ := h x (by simp)
    obtain ⟨ws, hws⟩ := ih (fun y hy => h y (by simp [hy]))
    exact ⟨w :: ws, by simp [resolveWords, hw, hws]⟩

theorem adjacentOK_iff_chain :
    ∀ terms : List LocatedQueryTerm,
      adjacentOK terms = true ↔
        List.Chain' (fun a b => a.posEnd = wrapSub1 b.posStart) terms := by
  intro terms
  match terms with
  | [] => simp [adjacentOK]
  | [a] => simp [adjacentOK]
  | a :: b :: rest =>
    rw [List.chain'_cons, ← adjacentOK_iff_chain (b :: rest)]
    simp [adjacentOK, Bool.and_eq_true, decide_eq_true_eq]

theorem getLastD_mem_cons' {α : Type} :
    ∀ (l : List α) (a : α), l.getLastD a ∈ a :: l := by
  intro l
  induction l with
  | nil => intro a; simp [List.getLastD]
  | cons x xs ih =>
    intro a
    rw [List.getLastD_cons]
    exact List.mem_cons_of_mem a (ih x)

/-- Under the assertion's precondition and handle validity, `make_ngram`
completes without panicking, and returns `Ok(None)` exactly when one of its
four preconditions fails. -/
theorem makeNgram_char (c : SearchContext) (t0 : LocatedQueryTerm)
    (rest : List LocatedQueryTerm) (nbrT : String → Nat)
    (hv : ValidHandles c (t0 :: rest)) :
    ∃ r, makeNgram c (t0 :: rest) nbrT = some r ∧
      (r = none ↔
        (∃ lt ∈ t0 :: rest, ∃ qt, termGet c lt.value = some qt ∧
          qt.zero_typo.phrase.isSome = true) ∨
        ¬ List.Chain' (fun a b => a.posEnd = wrapSub1 b.posStart) (t0 :: rest) ∨
        (∃ lt ∈ t0 :: rest, ∃ qt, termGet c lt.value = some qt ∧
          originalSingleWord qt = none) ∨
        (∃ hs ws, collectWords c (t0 :: rest) = some (some hs) ∧
          resolveWords c hs = some ws ∧
          MAX_WORD_LENGTH < (String.join ws).utf8ByteSize)) := by
  have hv1 : ∀ lt ∈ t0 :: rest, ∃ qt, termGet c lt.value = some qt :=
    fun lt hlt => (hv lt hlt).imp (fun qt h => h.1)
  obtain ⟨b, hpc, hbiff⟩ := phraseCheck_char c (t0 :: rest) hv1
  cases b with
  | true =>
    refine ⟨none, by simp [makeNgram, hpc], ?_⟩
    exact ⟨fun _ => Or.inl (hbiff.mp rfl), fun _ => rfl⟩
  | false =>
    have hnophrase : ¬ ∃ lt ∈ t0 :: rest, ∃ qt,
        termGet c lt.value = some qt ∧ qt.zero_typo.phrase.isSome = true := by
      intro hcontra
      exact (by simp : ¬ (false = true)) (hbiff.mpr hcontra)
    by_cases hadj : adjacentOK (t0 :: rest) = true
    · obtain ⟨r2, hcw, hiff2, hmem2⟩ := collectWords_char c (t0 :: rest) hv1
      cases r2 with
      | none =>
        refine ⟨none, by simp [makeNgram, hpc, hcw, hadj], ?_⟩
        exact ⟨fun _ => Or.inr (Or.inr (Or.inl (hiff2.mp rfl))), fun _ => rfl⟩
      | some hs =>
        have hws : ∃ ws, resolveWords c hs = some ws := by
          refine resolveWords_total c hs ?_
          intro x hx
          obtain ⟨lt, hlt, qt, hqt, horig⟩ := hmem2 hs rfl x hx
          obtain ⟨qt', hqt', w, hw⟩ := hv lt hlt
          rw [hqt] at hqt'
          rw [Option.some.injEq] at hqt'
          subst hqt'
          exact ⟨w, horig ▸ hw⟩
        obtain ⟨ws, hrw⟩ := hws
        have hlastmem : (rest.getLastD t0) ∈ t0 :: rest :=
          getLastD_mem_cons' rest t0
        obtain ⟨qtl, hqtl, -⟩ := hv _ hlastmem
        have hqtl2 : termGet c (((t0 :: rest).getLast?).getD t0).value =
            some qtl := by
          rw [← List.getLastD_eq_getLast?, List.getLastD_cons]
          exact hqtl
        have hnosingle : ¬ ∃ lt ∈ t0 :: rest, ∃ qt,
            termGet c lt.value = some qt ∧ originalSingleWord qt = none := by
          intro hcontra
          exact (by simp : ¬ ((some hs : Option (List Nat)) = none))
            (hiff2.mpr hcontra)
        by_cases hlen : MAX_WORD_LENGTH < (String.join ws).utf8ByteSize
        · refine ⟨none, ?_, ?_⟩
          · simp [makeNgram, hpc, hcw, hrw, hqtl2, hadj, hlen]
          · exact ⟨fun _ => Or.inr (Or.inr (Or.inr ⟨hs, ws, hcw, hrw, hlen⟩)),
              fun _ => rfl⟩
        · have hmk : ∃ v, makeNgram c (t0 :: rest) nbrT = some (some v) := by
            simp [makeNgram, hpc, hcw, hrw, hqtl2, hadj, hlen]
          obtain ⟨v, hvv⟩ := hmk
          refine ⟨some v, hvv, ?_⟩
          constructor
          · intro hcontra
            exact absurd hcontra (by simp)
          · rintro (h | h | h | ⟨hs', ws', hcw', hrw', hlen'⟩)
            · exact absurd h hnophrase
            · exact absurd ((adjacentOK_iff_chain _).mp hadj) h
            · exact absurd h hnosingle
            · rw [hcw] at hcw'
              rw [Option.some.injEq, Option.some.injEq] at hcw'
              subst hcw'
              rw [hrw] at hrw'
              rw [Option.some.injEq] at hrw'
              subst hrw'
              exact absurd hlen' hlen
    · have hfalse : adjacentOK (t0 :: rest) = false := by
        cases h : adjacentOK (t0 :: rest) with
        | true => exact absurd h hadj
        | false => rfl
      refine ⟨none, by simp [makeNgram, hpc, hfalse], ?_⟩
      refine ⟨fun _ => Or.inr (Or.inl ?_), fun _ => rfl⟩
      intro hchain
      exact hadj ((adjacentOK_iff_chain _).mpr hchain)

/-- C7: under the assertion precondition (non-empty window) and handle
validity, `make_ngram` returns `Ok(None)` iff some precondition fails —
a phrase term in the window, non-contiguous positions, a term with no
single original word (phrases and prior n-grams), or an over-long
concatenation — and returns `Ok(Some _)` otherwise. -/
theorem makeNgramNoneIffFailedCondition (c : SearchContext)
    (terms : List LocatedQueryTerm) (nbrT : String → Nat)
    (hne : terms ≠ []) (hv : ValidHandles c terms) :
    ∃ r, makeNgram c terms nbrT = some r ∧
      (r = none ↔
        (∃ lt ∈ terms, ∃ qt, termGet c lt.value = some qt ∧
          qt.zero_typo.phrase.isSome = true) ∨
        ¬ List.Chain' (fun a b => a.posEnd = wrapSub1 b.posStart) terms ∨
        (∃ lt ∈ terms, ∃ qt, termGet c lt.value = some qt ∧
          originalSingleWord qt = none) ∨
        (∃ hs ws, collectWords c terms = some (some hs) ∧
          resolveWords c hs = some ws ∧
          MAX_WORD_LENGTH < (String.join ws).utf8ByteSize)) := by
  match terms, hne with
  | t0 :: rest, _ => exact makeNgram_char c t0 rest nbrT hv

/-- Witness for C7 at the "new york" window of spec scenario 6 (all
preconditions hold, so the result is `Ok(Some _)`). -/
theorem makeNgramNoneIffFailedCondition_witness :
    ∃ r, makeNgram ctxB ltsB (numberOfTyposAllowed ctxB) = some r ∧
      (r = none ↔
        (∃ lt ∈ ltsB, ∃ qt, termGet ctxB lt.value = some qt ∧
          qt.zero_typo.phrase.isSome = true) ∨
        ¬ List.Chain' (fun a b => a.posEnd = wrapSub1 b.posStart) ltsB ∨
        (∃ lt ∈ ltsB, ∃ qt, termGet ctxB lt.value = some qt ∧
          originalSingleWord qt = none) ∨
        (∃ hs ws, collectWords ctxB ltsB = some (some hs) ∧
          resolveWords ctxB hs = some ws ∧
          MAX_WORD_LENGTH < (String.join ws).utf8ByteSize)) :=
  makeNgramNoneIffFailedCondition ctxB ltsB (numberOfTyposAllowed ctxB)
    (by decide)
    (by
      intro lt hlt
      rcases List.mem_cons.mp hlt with rfl | hlt
      · exact ⟨_, rfl, _, rfl⟩
      · rcases List.mem_cons.mp hlt with rfl | hlt
        · exact ⟨_, rfl, _, rfl⟩
        · exact absurd hlt (by simp))

/-- C10: `make_ngram` asserts a non-empty window — on the empty slice it
panics (modelled as the outer `none`) rather than returning `Ok(None)`,
while on any non-empty slice with valid handles it returns without
panicking. -/
theorem makeNgramEmptyAsserts :
    (∀ (c : SearchContext) (nbrT : String → Nat),
      makeNgram c [] nbrT = none) ∧
    (∀ (c : SearchContext) (terms : List LocatedQueryTerm)
      (nbrT : String → Nat), terms ≠ [] → ValidHandles c terms →
      ∃ r, makeNgram c terms nbrT = some r) := by
  refine ⟨fun c nbrT => rfl, ?_⟩
  intro c terms nbrT hne hv
  match terms, hne with
  | t0 :: rest, _ =>
    obtain ⟨r, hr, -⟩ := makeNgram_char c t0 rest nbrT hv
    exact ⟨r, hr⟩

/-- Witness for C10: the empty window panics; the scenario-6 window
returns. -/
theorem makeNgramEmptyAsserts_witness :
    makeNgram ctxA [] (numberOfTyposAllowed ctxA) = none ∧
    ∃ r, makeNgram ctxB ltsB (numberOfTyposAllowed ctxB) = some r :=
  ⟨makeNgramEmptyAsserts.1 ctxA (numberOfTyposAllowed ctxA),
   makeNgramEmptyAsserts.2 ctxB ltsB (numberOfTyposAllowed ctxB) (by decide)
    (by
      intro lt hlt
      rcases List.mem_cons.mp hlt with rfl | hlt
      · exact ⟨_, rfl, _, rfl⟩
      · rcases List.mem_cons.mp hlt with rfl | hlt
        · exact ⟨_, rfl, _, rfl⟩
        · exact absurd hlt (by simp))⟩

/-! ## C8 groundwork: synonym phrases resolve to the map entry -/

theorem slots_resolve_mono {c c' : SearchContext} (he : CtxExtends c c') :
    ∀ (slots : List (Option Nat)) (ws : List String),
      slots.map (fun o => o.bind (fun h => c.word_interner.get h)) =
        ws.map some →
      slots.map (fun o => o.bind (fun h => c'.word_interner.get h)) =
        ws.map some := by
  intro slots
  induction slots with
  | nil =>
    intro ws h
    cases ws with
    | nil => rfl
    | cons w wt => simp at h
  | cons o os ih =>
    intro ws h
    cases ws with
    | nil => simp at h
    | cons w wt =>
      simp only [List.map_cons, List.cons.injEq] at h ⊢
      refine ⟨?_, ih wt h.2⟩
      cases o with
      | none => simp at h
      | some hh =>
        have h1 : c.word_interner.get hh = some w := by simpa using h.1
        simpa using he.2.2 _ _ h1

theorem phrases_resolve_mono {c c' : SearchContext} (he : CtxExtends c c') :
    ∀ (phs : List Nat) (L : List (List String)),
      phs.map (fun ph => (c.phrase_interner.get ph).map (phraseToWords c)) =
        L.map (fun syn => some (syn.map some)) →
      phs.map (fun ph => (c'.phrase_interner.get ph).map (phraseToWords c')) =
        L.map (fun syn => some (syn.map some)) := by
  intro phs
  induction phs with
  | nil =>
    intro L h
    cases L with
    | nil => rfl
    | cons syn L => simp at h
  | cons ph pt ih =>
    intro L h
    cases L with
    | nil => simp at h
    | cons syn L =>
      simp only [List.map_cons, List.cons.injEq] at h ⊢
      refine ⟨?_, ih L h.2⟩
      cases hg : c.phrase_interner.get ph with
      | none => rw [hg] at h; simp at h
      | some pr =>
        rw [hg] at h
        have h1 : phraseToWords c pr = syn.map some := by simpa using h.1
        rw [he.2.1 _ _ hg]
        have h2 : phraseToWords c' pr = syn.map some :=
          slots_resolve_mono he pr.words syn h1
        simpa using h2

theorem internSlots_spec (ws : List String) : ∀ c : SearchContext,
    CtxExtends c (internSlots c ws).2 ∧
    (internSlots c ws).1.map
      (fun o => o.bind (fun h => (internSlots c ws).2.word_interner.get h)) =
      ws.map some := by
  induction ws with
  | nil => intro c; exact ⟨ctxExtends_rfl c, rfl⟩
  | cons w ws ih =>
    intro c
    obtain ⟨he2, hres⟩ := ih (internWord c w).2
    have he1 := internWord_extends c w
    refine ⟨ctxExtends_trans he1 he2, ?_⟩
    simp only [internSlots, List.map_cons, Option.some_bind, List.cons.injEq]
    refine ⟨?_, hres⟩
    exact he2.2.2 _ _ (internWord_get c w)

theorem internSynPhrases_spec (l : List (List String)) : ∀ c : SearchContext,
    CtxExtends c (internSynPhrases c l).2 ∧
    (internSynPhrases c l).1.map
      (fun ph => ((internSynPhrases c l).2.phrase_interner.get ph).map
        (phraseToWords (internSynPhrases c l).2)) =
      l.map (fun syn => some (syn.map some)) := by
  induction l with
  | nil => intro c; exact ⟨ctxExtends_rfl c, rfl⟩
  | cons ws l ih =>
    intro c
    obtain ⟨heS, hresS⟩ := internSlots_spec ws c
    have heP := internPhrase_extends (internSlots c ws).2
      ⟨(internSlots c ws).1⟩
    obtain ⟨heR, hresR⟩ :=
      ih (internPhrase (internSlots c ws).2 ⟨(internSlots c ws).1⟩).2
    refine ⟨ctxExtends_trans heS (ctxExtends_trans heP heR), ?_⟩
    simp only [internSynPhrases, List.map_cons, List.cons.injEq]
    refine ⟨?_, hresR⟩
    have hget := internPhrase_get (internSlots c ws).2 ⟨(internSlots c ws).1⟩
    rw [heR.2.1 _ _ hget]
    have hws : (internSlots c ws).1.map
        (fun o => o.bind (fun h =>
          (internSynPhrases (internPhrase (internSlots c ws).2
            ⟨(internSlots c ws).1⟩).2 l).2.word_interner.get h)) =
        ws.map some :=
      slots_resolve_mono (ctxExtends_trans heP heR) _ ws hresS
    simpa [phraseToWords] using hws

/-- C8: when `make_ngram` succeeds on a non-empty window of word terms, the
produced located term spans `[first.start, last.end]` and its query term
has `max_nbr_typos = typo_policy(concatenation) - (N - 1)` (saturating),
`ngram_words` = the constituent word handles, `is_prefix` inherited from
the rightmost constituent, `original` = the interned concatenation, and
`zero_typo.synonyms` resolving exactly to the index synonym-map entry for
the original word sequence. -/
theorem makeNgramSuccessFields (c : SearchContext) (t0 : LocatedQueryTerm)
    (rest : List LocatedQueryTerm) (nbrT : String → Nat)
    (hs : List Nat) (ws : List String) (qtl : QueryTerm)
    (hpc : phraseCheck c (t0 :: rest) = some false)
    (hadj : adjacentOK (t0 :: rest) = true)
    (hcw : collectWords c (t0 :: rest) = some (some hs))
    (hrw : resolveWords c hs = some ws)
    (hqtl : termGet c (rest.getLastD t0).value = some qtl)
    (hlen : ¬ MAX_WORD_LENGTH < (String.join ws).utf8ByteSize)
    (hN : (t0 :: rest).length ≤ 256) :
    ∃ c4 lt, makeNgram c (t0 :: rest) nbrT = some (some (c4, lt)) ∧
      lt.posStart = t0.posStart ∧
      lt.posEnd = (rest.getLastD t0).posEnd ∧
      ∃ qt, termGet c4 lt.value = some qt ∧
        qt.max_nbr_typos =
          nbrT (String.join ws) - ((t0 :: rest).length - 1) ∧
        qt.ngram_words = some hs ∧
        qt.isPfx = qtl.isPfx ∧
        qt.original = (internWord c (String.join ws)).1 ∧
        qt.zero_typo.synonyms.map
          (fun ph => (c4.phrase_interner.get ph).map (phraseToWords c4)) =
          (synLookup c ws).map (fun syn => some (syn.map some)) := by
  have hqtl2 : termGet c (((t0 :: rest).getLast?).getD t0).value =
      some qtl := by
    rw [← List.getLastD_eq_getLast?, List.getLastD_cons]
    exact hqtl
  have hmk : makeNgram c (t0 :: rest) nbrT =
      some (some (ngramTail c (t0 :: rest) nbrT hs ws qtl.isPfx t0.posStart
        (((t0 :: rest).getLast?).getD t0).posEnd)) := by
    simp [makeNgram, hpc, hcw, hrw, hqtl2, hadj, hlen]
  refine ⟨(ngramTail c (t0 :: rest) nbrT hs ws qtl.isPfx t0.posStart
      (((t0 :: rest).getLast?).getD t0).posEnd).1,
    (ngramTail c (t0 :: rest) nbrT hs ws qtl.isPfx t0.posStart
      (((t0 :: rest).getLast?).getD t0).posEnd).2, by rw [hmk], rfl, ?_, ?_⟩
  · show (((t0 :: rest).getLast?).getD t0).posEnd = (rest.getLastD t0).posEnd
    rw [← List.getLastD_eq_getLast?, List.getLastD_cons]
  · -- the pushed query term and its fields
    refine ⟨_, pushTerm_get _ _, ?_, rfl, rfl, rfl, ?_⟩
    · show nbrT (String.join ws) - (((t0 :: rest).length % 256 + 255) % 256) =
        nbrT (String.join ws) - ((t0 :: rest).length - 1)
      congr 1
      have h1 : 1 ≤ (t0 :: rest).length := by simp
      omega
    · -- synonyms of the final term resolve to the synonym-map entry
      show ((termFromWord (internWord c (String.join ws)).2 (String.join ws)
            (nbrT (String.join ws) -
              (((t0 :: rest).length % 256 + 255) % 256)) qtl.isPfx).1.zero_typo.synonyms ++
          (internSynPhrases (termFromWord (internWord c (String.join ws)).2
            (String.join ws) (nbrT (String.join ws) -
              (((t0 :: rest).length % 256 + 255) % 256)) qtl.isPfx).2
            (synLookup (termFromWord (internWord c (String.join ws)).2
              (String.join ws) (nbrT (String.join ws) -
                (((t0 :: rest).length % 256 + 255) % 256)) qtl.isPfx).2 ws)).1).map
          (fun ph =>
            (((ngramTail c (t0 :: rest) nbrT hs ws qtl.isPfx t0.posStart
              (((t0 :: rest).getLast?).getD t0).posEnd).1).phrase_interner.get
                ph).map
              (phraseToWords ((ngramTail c (t0 :: rest) nbrT hs ws qtl.isPfx
                t0.posStart (((t0 :: rest).getLast?).getD t0).posEnd).1))) =
        (synLookup c ws).map (fun syn => some (syn.map some))
      obtain ⟨heR, hresR⟩ := internSynPhrases_spec
        (synLookup (termFromWord (internWord c (String.join ws)).2
          (String.join ws) (nbrT (String.join ws) -
            (((t0 :: rest).length % 256 + 255) % 256)) qtl.isPfx).2 ws)
        (termFromWord (internWord c (String.join ws)).2 (String.join ws)
          (nbrT (String.join ws) -
            (((t0 :: rest).length % 256 + 255) % 256)) qtl.isPfx).2
      have hsynEq : synLookup (termFromWord (internWord c (String.join ws)).2
          (String.join ws) (nbrT (String.join ws) -
            (((t0 :: rest).length % 256 + 255) % 256)) qtl.isPfx).2 ws =
          synLookup c ws := rfl
      rw [hsynEq] at hresR
      have hmono := @phrases_resolve_mono _
        (ngramTail c (t0 :: rest) nbrT hs ws qtl.isPfx t0.posStart
          (((t0 :: rest).getLast?).getD t0).posEnd).1
        (pushTerm_extends _ _) _ _ hresR
      simpa [List.nil_append] using hmono

/-- Witness for `makeNgramSuccessFields` at the concrete two-term window
"new" (5..=5) and "york" (6..=6) of `ctxB`, with one index synonym
["new","york"] -> [["nyc"]]. -/
theorem makeNgramSuccessFields_witness :
    termGet ctxB (([⟨1, 6, 6⟩] : List LocatedQueryTerm).getLastD ⟨0, 5, 5⟩).value =
      some qtlB ∧
    (∃ c4 lt, makeNgram ctxB (⟨0, 5, 5⟩ :: [⟨1, 6, 6⟩]) (numberOfTyposAllowed ctxB) =
        some (some (c4, lt)) ∧
      lt.posStart = (⟨0, 5, 5⟩ : LocatedQueryTerm).posStart ∧
      lt.posEnd = (([⟨1, 6, 6⟩] : List LocatedQueryTerm).getLastD ⟨0, 5, 5⟩).posEnd ∧
      ∃ qt, termGet c4 lt.value = some qt ∧
        qt.max_nbr_typos =
          numberOfTyposAllowed ctxB (String.join ["new", "york"]) -
            (((⟨0, 5, 5⟩ : LocatedQueryTerm) :: [⟨1, 6, 6⟩]).length - 1) ∧
        qt.ngram_words = some [0, 1] ∧
        qt.isPfx = qtlB.isPfx ∧
        qt.original = (internWord ctxB (String.join ["new", "york"])).1 ∧
        qt.zero_typo.synonyms.map
          (fun ph => (c4.phrase_interner.get ph).map (phraseToWords c4)) =
          (synLookup ctxB ["new", "york"]).map (fun syn => some (syn.map some))) :=
  ⟨by decide,
   makeNgramSuccessFields ctxB ⟨0, 5, 5⟩ [⟨1, 6, 6⟩] (numberOfTyposAllowed ctxB)
     [0, 1] ["new", "york"] qtlB (by decide) (by decide) (by decide) (by decide)
     (by decide) (by decide) (by decide)⟩
